import Mathlib

set_option linter.unusedVariables false

/-!
Verification of the ytkb YouTrack knowledge-base sync tool.

This file gives a shallow embedding of the tool's core logic — the tree
builder, the diff reconciler, the push planner and the downloader — and
proves or refutes the specification claims about them.

Conventions used throughout:
* Go `*string` fields are modelled as `Option String` (a nil pointer is
  `none`).
* Go maps are modelled as association lists built by the same insert loops
  the source runs (`upsert`), so a later insert for the same key overwrites
  the earlier one and lookup returns the surviving value.
* Go map iteration order is unspecified at runtime; where a loop's result is
  order-independent we iterate in insertion order, and where the order is
  observable (sibling ordering of equal `order` keys) we use an explicit
  relational semantics (`goSortAdmissible`) quantifying over all permutations.
* `sort.Slice` guarantees a `≤`-sorted permutation but is documented as not
  stable; the deterministic model uses `List.insertionSort`, and the
  relational semantics captures the full set of outcomes.
* Recursive Go functions whose termination depends on data invariants are
  given an explicit fuel parameter; the callers pass enough fuel, which the
  theorems justify.
-/

/-- Sync status of an article node, from the `ArticleStatus` enum of the diff
command. -/
inductive ArticleStatus where
  | unchanged
  | modified
  | newLocal
  | deleted
deriving DecidableEq, Repr

/-- A remote article, from `api.Article` in `internal/api/client.go`. -/
structure Article where
  id : String
  title : String
  content : String
  parentID : Option String
  order : Int
  url : String
deriving DecidableEq, Repr

/-- Root test used by `runDiff` and `runDownload`:
`ParentID == nil || *ParentID == ""`. -/
def isRootArticle (a : Article) : Bool :=
  match a.parentID with
  | none => true
  | some p => p == ""

/-- The child scan of `buildTreeNode` / `downloadArticleRecursive`:
`child.ParentID != nil && *child.ParentID == article.ID`, over the values of
the `articlesByID` map (equal to the input list when ids are distinct). -/
def childrenArticles (all : List Article) (i : String) : List Article :=
  all.filter (fun c =>
    match c.parentID with
    | none => false
    | some p => p == i)

/-- Deterministic model of `sort.Slice(xs, func(i, j) Order[i] < Order[j])`:
a `≤`-sorted permutation of the input. -/
def sortByOrder (l : List Article) : List Article :=
  List.insertionSort (fun a b => a.order ≤ b.order) l

/-- The sibling sequence both tree consumers compute for one parent id:
gather the children and sort them by `order`. -/
def goChildren (all : List Article) (i : String) : List Article :=
  sortByOrder (childrenArticles all i)

/-- Relational semantics of the Go children computation: the gather loop walks
a map in unspecified order, and `sort.Slice` is an unstable sort, so any
`≤`-sorted permutation of the matching articles is an admissible outcome. -/
def goSortAdmissible (all : List Article) (i : String) (out : List Article) : Prop :=
  List.Perm out (childrenArticles all i) ∧
  List.Sorted (fun a b => a.order ≤ b.order) out

/-- A node of the built forest. The diff command's `ArticleNode` also carries
a status and a path; those are attached separately (`DiffNode`) — this bare
tree is what `buildTreeNode`'s recursion produces structurally. -/
inductive TNode where
  | mk : Article → List TNode → TNode
deriving Repr

def TNode.art : TNode → Article
  | .mk a _ => a

def TNode.subs : TNode → List TNode
  | .mk _ cs => cs

/-- `buildTreeNode` from the diff command (and the recursion skeleton of
`downloadArticleRecursive`): a node for the article plus recursively built
nodes for its sorted children. Fuel bounds the recursion depth; the callers
pass `all.length`, which suffices (see the depth bound lemmas). -/
def buildTreeNode (all : List Article) : Nat → Article → TNode
  | 0, a => .mk a []
  | fuel+1, a => .mk a ((goChildren all a.id).map (fun c => buildTreeNode all fuel c))

/-- The root scan plus per-root tree build of `runDiff` (lines 148–166):
roots are articles with an absent or empty parent reference, sorted by
`order`; each then grows a tree. -/
def buildServerForest (all : List Article) : List TNode :=
  (sortByOrder (all.filter isRootArticle)).map (fun a => buildTreeNode all all.length a)

mutual

/-- Articles of a tree, preorder. -/
def flatN : TNode → List Article
  | .mk a cs => a :: flatF cs

/-- Articles of a forest, preorder. -/
def flatF : List TNode → List Article
  | [] => []
  | t :: ts => flatN t ++ flatF ts

end

mutual

/-- All nodes of a tree, preorder. -/
def nodesN : TNode → List TNode
  | .mk a cs => .mk a cs :: nodesF cs

/-- All nodes of a forest, preorder. -/
def nodesF : List TNode → List TNode
  | [] => []
  | t :: ts => nodesN t ++ nodesF ts

end

/-- Number of occurrences of an article in a list. -/
def occ (x : Article) (l : List Article) : Nat :=
  l.countP (fun y => y == x)

/-- Whether some node of the forest whose article is `p` has a direct child
node whose article is `c`. -/
def hasEdge (forest : List TNode) (p c : Article) : Bool :=
  (nodesF forest).any (fun m => m.art == p && m.subs.any (fun n => n.art == c))

/-- Single resolution step of a non-empty parent reference against the list:
the unique (when ids are distinct) article carrying the referenced id. -/
def findById (all : List Article) (i : String) : Option Article :=
  all.find? (fun c => c.id == i)

/-- One step up the parent chain. A root (absent or empty parent reference)
has no step; a dangling reference resolves to `none`. -/
def pArt (all : List Article) (x : Article) : Option Article :=
  match x.parentID with
  | none => none
  | some p => if p = "" then none else findById all p

/-- `k` steps up the parent chain. -/
def iterUp (all : List Article) : Nat → Article → Option Article
  | 0, x => some x
  | k+1, x => (iterUp all k x).bind (pArt all)

/-- An article is reachable when its parent chain ends at a root article
within `all.length` steps (enough steps for any resolvable chain, by the
chain-length bound proved below). -/
def reaches (all : List Article) (x : Article) : Bool :=
  (List.range (all.length + 1)).any (fun k =>
    match iterUp all k x with
    | some r => isRootArticle r
    | none => false)

/-! ## Markdown codec (internal/markdown) -/

/-- Frontmatter, from `markdown.Frontmatter`: `id` and `url` carry
`omitempty`, so the empty string stands for an absent field. -/
structure Frontmatter where
  id : String
  title : String
  url : String
deriving DecidableEq, Repr

/-- A decoded markdown file, from `markdown.MarkdownFile`. -/
structure MarkdownFile where
  fm : Frontmatter
  content : String
deriving DecidableEq, Repr

/-- Whether `pat` occurs at the head of `s`. -/
def leadsWith : List Char → List Char → Bool
  | [], _ => true
  | _ :: _, [] => false
  | p :: ps, c :: cs => p == c && leadsWith ps cs

/-- Index of the first occurrence of `pat` in `s`; models `strings.Index`. -/
def indexOfSub (pat : List Char) : List Char → Option Nat
  | [] => if leadsWith pat [] then some 0 else none
  | c :: cs =>
    if leadsWith pat (c :: cs) then some 0
    else (indexOfSub pat cs).map (· + 1)

/-- Split a character list at every occurrence of `c` (the separators are
consumed); the result always has at least one, possibly empty, piece. -/
def splitChar (c : Char) : List Char → List (List Char)
  | [] => [[]]
  | x :: xs =>
    if x = c then [] :: splitChar c xs
    else
      match splitChar c xs with
      | [] => [[x]]
      | l :: ls => (x :: l) :: ls

/-- Join pieces with the separator `c`; partial inverse of `splitChar`. -/
def joinChar (c : Char) : List (List Char) → List Char
  | [] => []
  | [l] => l
  | l :: ls => l ++ c :: joinChar c ls

/-- Models gopkg.in/yaml.v3 `Marshal` on `Frontmatter`: one `key: value` line
per present field, in struct order. Real yaml.v3 additionally quotes or
block-formats values that are not plain one-line scalars; the round-trip
theorem only uses this model under the `plainScalar` hypothesis below, where
the two encodings agree, and the counterexample uses plain values. -/
def marshalFM (fm : Frontmatter) : String :=
  (if fm.id = "" then "" else "id: " ++ fm.id ++ "\n") ++
  ("title: " ++ fm.title ++ "\n") ++
  (if fm.url = "" then "" else "url: " ++ fm.url ++ "\n")

/-- Split a line at the first `: ` into key and value. -/
def splitKeyVal (l : List Char) : Option (List Char × List Char) :=
  match indexOfSub [':', ' '] l with
  | none => none
  | some i => some (l.take i, l.drop (i + 2))

/-- Apply one `key: value` line to the frontmatter being decoded; unknown
keys are ignored, as yaml.v3 does for a struct without strict mode. -/
def applyFMLine (fm : Frontmatter) (l : List Char) : Option Frontmatter :=
  match splitKeyVal l with
  | none => none
  | some kv =>
    if kv.1 = "id".data then some { fm with id := String.mk kv.2 }
    else if kv.1 = "title".data then some { fm with title := String.mk kv.2 }
    else if kv.1 = "url".data then some { fm with url := String.mk kv.2 }
    else some fm

/-- One line of the yaml decoding: failures propagate, empty lines are
skipped, other lines decode as `key: value`. -/
def unmarshalStep (acc : Option Frontmatter) (l : List Char) : Option Frontmatter :=
  match acc with
  | none => none
  | some fm => if l = [] then some fm else applyFMLine fm l

/-- Models gopkg.in/yaml.v3 `Unmarshal` into `Frontmatter` on the line-based
documents `marshalFM` produces (and their prefixes, as the truncation
counterexample needs): decode each non-empty line as `key: value`. -/
def unmarshalFM (s : String) : Option Frontmatter :=
  (splitChar '\n' s.data).foldl unmarshalStep (some { id := "", title := "", url := "" })

/-- The frontmatter delimiter `ParseMarkdown` scans for. -/
def fmDelim : List Char := "---\n".data

/-- `ParseMarkdown` (internal/markdown, lines 289–318): locate the first
`---\n`, then the next `---\n` after it, yaml-decode the text between, and
take everything after the closing delimiter as the body. -/
def parseMarkdown (content : String) : Option MarkdownFile :=
  let cs := content.data
  match indexOfSub fmDelim cs with
  | none => none
  | some fmStart =>
    match indexOfSub fmDelim (cs.drop (fmStart + 4)) with
    | none => none
    | some fmEnd =>
      let fmText := (cs.drop (fmStart + 4)).take fmEnd
      let bodyStart := fmStart + 4 + fmEnd + 4
      match unmarshalFM (String.mk fmText) with
      | none => none
      | some fm =>
        some { fm := fm,
               content := if bodyStart < cs.length then String.mk (cs.drop bodyStart) else "" }

/-- `WriteMarkdown` (internal/markdown, lines 320–336): delimiter, yaml
frontmatter, delimiter, body. -/
def writeMarkdown (fm : Frontmatter) (content : String) : String :=
  "---\n" ++ marshalFM fm ++ "---\n" ++ content

/-- Models `strings.TrimSpace` (the ASCII whitespace classes cover the
contents the claims compare). -/
def trimChars (cs : List Char) : List Char :=
  ((cs.dropWhile Char.isWhitespace).reverse.dropWhile Char.isWhitespace).reverse

def goTrim (s : String) : String := String.mk (trimChars s.data)

/-- Models `strings.ToLower` on the ASCII confirmation responses. -/
def goLower (s : String) : String := String.mk (s.data.map Char.toLower)

/-! ## Downloader (download command) -/

/-- A file write performed by the downloader (`filesystem.WriteMarkdownFile`
creates intermediate directories itself, so directory creation is not a
separate observable step). -/
inductive FSWrite where
  | file (path : String) (content : String)
deriving DecidableEq, Repr

/-- Models `filepath.Join` on the cleaned relative paths the downloader
builds: joining from the base `"."` just yields the name. -/
def joinPath (base name : String) : String :=
  if base = "." then name else base ++ "/" ++ name

/-- The characters `SanitizeFilename` replaces. -/
def invalidFileChars : List Char := "/\\<>:\"|?*".data

/-- One `strings.ReplaceAll(result, string(char), "_")` step on a single
character: since both the pattern and the replacement are single characters,
it is the characterwise substitution. -/
def replaceCharStr (s : List Char) (c : Char) : List Char :=
  s.map (fun x => if x = c then '_' else x)

/-- `filesystem.SanitizeFilename` (files.go lines 10–17): fold the
replacement over each invalid character in turn. -/
def sanitizeFilename (name : String) : String :=
  String.mk (invalidFileChars.foldl replaceCharStr name.data)

/-- `downloadArticleRecursive` (download command lines 71–120) as the list of
file writes it performs: write the sanitized-title file in the current base
directory, then recurse into the sanitized-title subdirectory for the sorted
children (a no-op when there are none). Fuel bounds the recursion; the
caller passes `all.length`. -/
def downloadArticleRecursive (all : List Article) : Nat → String → Article → List FSWrite
  | 0, base, a =>
    [FSWrite.file (joinPath base (sanitizeFilename a.title ++ ".md"))
      (writeMarkdown { id := a.id, title := a.title, url := a.url } a.content)]
  | fuel+1, base, a =>
    FSWrite.file (joinPath base (sanitizeFilename a.title ++ ".md"))
      (writeMarkdown { id := a.id, title := a.title, url := a.url } a.content)
    :: (goChildren all a.id).flatMap
        (fun c => downloadArticleRecursive all fuel (joinPath base (sanitizeFilename a.title)) c)

/-- `runDownload` (download command lines 23–68): nothing on an empty list,
else the sorted roots are downloaded recursively from base `"."`. -/
def runDownloadWrites (all : List Article) : List FSWrite :=
  if all.isEmpty then []
  else (sortByOrder (all.filter isRootArticle)).flatMap
    (fun r => downloadArticleRecursive all all.length "." r)

/-! ## Local snapshot and reconciler (diff command) -/

/-- Go map insert: overwrite the entry for the key, or append a new one. -/
def upsert (m : List (String × α)) (k : String) (v : α) : List (String × α) :=
  if m.any (fun pr => pr.1 == k) then
    m.map (fun pr => if pr.1 == k then (k, v) else pr)
  else m ++ [(k, v)]

/-- Go map lookup on the association list. -/
def lookupKey (m : List (String × α)) (k : String) : Option α :=
  (m.find? (fun pr => pr.1 == k)).map (fun pr => pr.2)

/-- The three local-file indexes the diff and push commands build. -/
structure LocalMaps where
  byID : List (String × MarkdownFile)
  paths : List (String × String)
  byPath : List (String × MarkdownFile)

/-- One iteration of the local-file loading loop shared by `runDiff`
(lines 88–107) and `pushAllChanges` (lines 82–97): parse the file, silently
skipping failures; a file with a non-empty id is indexed by id (and its path
recorded), an identifier-less file by path. -/
def loadLocalStep (m : LocalMaps) (pr : String × String) : LocalMaps :=
  match parseMarkdown pr.2 with
  | none => m
  | some md =>
    if md.fm.id = "" then
      { m with byPath := upsert m.byPath pr.1 md }
    else
      { m with byID := upsert m.byID md.fm.id md,
               paths := upsert m.paths md.fm.id pr.1 }

/-- The whole local-file loading loop. The input pairs are (relative path,
raw file content). -/
def loadLocalMaps (locals : List (String × String)) : LocalMaps :=
  locals.foldl loadLocalStep { byID := [], paths := [], byPath := [] }

/-- The `serverByID` index both commands build. -/
def serverByID (server : List Article) : List (String × Article) :=
  server.foldl (fun m a => upsert m a.id a) []

/-- The per-article status computation of `runDiff` lines 119–138. -/
def statusEntry (locals : LocalMaps) (a : Article) : ArticleStatus :=
  match lookupKey locals.byID a.id with
  | some md =>
    if goTrim md.content = goTrim a.content then ArticleStatus.unchanged
    else ArticleStatus.modified
  | none => ArticleStatus.deleted

/-- The `articleStatus` map of `runDiff`: one entry per `serverByID` entry
(the loop body depends only on the entry, so the unspecified map iteration
order does not affect the resulting map). -/
def articleStatusMap (server : List Article) (locals : LocalMaps) : List (String × ArticleStatus) :=
  (serverByID server).map (fun pr => (pr.1, statusEntry locals pr.2))

/-! ## New-local insertion into the diff forest -/

/-- The diff command's `ArticleNode`: id, title, status, children, path. -/
inductive DiffNode where
  | mk : String → String → ArticleStatus → List DiffNode → String → DiffNode
deriving Repr

def DiffNode.nodePath : DiffNode → String
  | .mk _ _ _ _ p => p

def DiffNode.nodeKids : DiffNode → List DiffNode
  | .mk _ _ _ cs _ => cs

def DiffNode.nodeStatus : DiffNode → ArticleStatus
  | .mk _ _ st _ _ => st

/-- Models `filepath.Dir` on the cleaned slash-separated relative paths
`filesystem.FindMarkdownFiles` produces: all but the last component, `"."`
when there is none. -/
def dirOf (p : String) : String :=
  let parts := splitChar '/' p.data
  if parts.length ≤ 1 then "." else String.mk (joinChar '/' parts.dropLast)

/-- `findNodeByPath` (diff command lines 248–263) fused with the child
append its caller performs on the found node: rewrite the first node, in the
same preorder traversal the source walks (node, then its children, then the
next sibling), whose non-empty path has `dir` as its containing directory,
appending `new` to that node's children; `none` when no node matches. -/
def attachInForest (dir : String) (new : DiffNode) : List DiffNode → Option (List DiffNode)
  | [] => none
  | DiffNode.mk i t st cs p :: ns =>
    if p ≠ "" ∧ dirOf p = dir then
      some (DiffNode.mk i t st (cs ++ [new]) p :: ns)
    else
      match attachInForest dir new cs with
      | some cs2 => some (DiffNode.mk i t st cs2 p :: ns)
      | none =>
        match attachInForest dir new ns with
        | some ns2 => some (DiffNode.mk i t st cs p :: ns2)
        | none => none

/-- The node `runDiff` builds for an identifier-less local file: empty id,
the file's title, status new-local, no children, the file's path. -/
def newLocalNode (path : String) (md : MarkdownFile) : DiffNode :=
  DiffNode.mk "" md.fm.title ArticleStatus.newLocal [] path

/-- One iteration of the new-local loop of `runDiff` (lines 170–194): build
the status-`newLocal` node for the identifier-less file; attach it as a root
when the file sits in the sync root, under the path-matched node when one is
found, and as a root otherwise. -/
def insertNewLocal (forest : List DiffNode) (path : String) (md : MarkdownFile) : List DiffNode :=
  if dirOf path = "." then forest ++ [newLocalNode path md]
  else
    match attachInForest (dirOf path) (newLocalNode path md) forest with
    | some f2 => f2
    | none => forest ++ [newLocalNode path md]

/-- The whole new-local loop over the identifier-less files. -/
def addNewLocals (forest : List DiffNode) (files : List (String × MarkdownFile)) : List DiffNode :=
  files.foldl (fun f pr => insertNewLocal f pr.1 pr.2) forest

mutual

/-- Number of nodes of a tree. -/
def countD : DiffNode → Nat
  | .mk _ _ _ cs _ => 1 + countF cs

/-- Number of nodes of a forest. -/
def countF : List DiffNode → Nat
  | [] => 0
  | t :: ts => countD t + countF ts

end

/-! ## Push planner and executor (cmd/push.go) -/

/-- A remote mutation. The api client offers update and create operations and
has no delete operation at all; all three shapes are modelled so the safety
claims can state which ones are never issued. -/
inductive RemoteCall where
  | update (id title content : String)
  | create (title content : String)
  | delete (id : String)
deriving DecidableEq, Repr

/-- An entry of the `pagesToPush` plan (push.go lines 104–108). -/
structure PushItem where
  id : String
  title : String
  filePath : String
deriving DecidableEq, Repr

/-- `pagesToPush` (push.go lines 110–124): over the `localByID` entries, keep
the ids that exist on the server with differing trimmed content. -/
def pagesToPush (locals : List (String × String)) (server : List Article) : List PushItem :=
  (loadLocalMaps locals).byID.filterMap (fun pr =>
    match lookupKey (serverByID server) pr.1 with
    | none => none
    | some sa =>
      if goTrim pr.2.content = goTrim sa.content then none
      else some { id := pr.1, title := pr.2.fm.title,
                  filePath := (lookupKey (loadLocalMaps locals).paths pr.1).getD "" })

/-- `newPages` (push.go lines 127–145): the paths of parseable files that are
identifier-less or whose identifier is absent from the server. -/
def newPages (locals : List (String × String)) (server : List Article) : List String :=
  locals.filterMap (fun pr =>
    match parseMarkdown pr.2 with
    | none => none
    | some md =>
      if md.fm.id = "" ∨ lookupKey (serverByID server) md.fm.id = none then some pr.1
      else none)

/-- The confirmation test (push.go lines 176–177):
`strings.TrimSpace(strings.ToLower(response))` equals `y` or `yes`. -/
def affirmative (resp : String) : Bool :=
  goTrim (goLower resp) == "y" || goTrim (goLower resp) == "yes"

/-- Result category of a bulk push run. -/
inductive PushOutcome where
  | noChanges
  | readErr
  | cancelled
  | pushed
deriving DecidableEq, Repr

/-- `pushAllChanges` (push.go lines 64–204) as a function from the local
snapshot, the server list and the confirmation line (`none` when reading the
line fails) to the remote calls issued, whether the prompt was shown, and the
outcome. Per-item update failures do not change which calls are issued, so
they are not modelled. -/
def pushAllChanges (locals : List (String × String)) (server : List Article)
    (resp : Option String) : List RemoteCall × Bool × PushOutcome :=
  let plan := pagesToPush locals server
  let fresh := newPages locals server
  if plan = [] ∧ fresh = [] then ([], false, PushOutcome.noChanges)
  else
    match resp with
    | none => ([], true, PushOutcome.readErr)
    | some r =>
      if affirmative r then
        (plan.map (fun it =>
          match lookupKey (loadLocalMaps locals).byID it.id with
          | some md => RemoteCall.update it.id md.fm.title md.content
          | none => RemoteCall.update it.id it.title ""),
         true, PushOutcome.pushed)
      else ([], true, PushOutcome.cancelled)

/-- The deletion-warning loop (push.go lines 195–200): every server article
with no local id match is reported with its title and canonical link; no
call is issued for it. -/
def deletionWarnings (locals : List (String × String)) (server : List Article) :
    List (String × String) :=
  (serverByID server).filterMap (fun pr =>
    if lookupKey (loadLocalMaps locals).byID pr.1 = none then some (pr.2.title, pr.2.url)
    else none)

/-- Result of a single-file push. -/
inductive SingleResult where
  | parseFailed
  | cannotPush (title : String)
  | updateFailed
  | updated (title : String)
deriving DecidableEq, Repr

/-- `pushSinglePage` (push.go lines 34–62) on the file's raw content;
`updateOk` abstracts whether the one remote update call succeeds. -/
def pushSinglePage (content : String) (updateOk : Bool) : List RemoteCall × SingleResult :=
  match parseMarkdown content with
  | none => ([], SingleResult.parseFailed)
  | some md =>
    if md.fm.id = "" then ([], SingleResult.cannotPush md.fm.title)
    else ([RemoteCall.update md.fm.id md.fm.title md.content],
          if updateOk then SingleResult.updated md.fm.title else SingleResult.updateFailed)

/-! ## Remote catalog adapter (internal/api/client.go) -/

/-- A decoded item of the articles response (`ArticleResponse` in
`ListArticles`); `parent` is the id of the nested `parentArticle` object,
`none` for a JSON null. -/
structure ArticleResponse where
  id : String
  summary : String
  content : String
  parent : Option String
  projectId : String
  projectName : String
deriving DecidableEq, Repr

/-- The pure conversion loop of `ListArticles` (client.go lines 117–143):
filter by the knowledge-base key when one is configured, extract the parent
id when present and non-empty, and build the `Article` with `Order`
hard-coded to 0 and the canonical link derived from the base URL. -/
def listArticlesConvert (responses : List ArticleResponse) (kbKey : String)
    (baseURL : String) : List Article :=
  responses.filterMap (fun ar =>
    if kbKey ≠ "" ∧ ar.projectId ≠ kbKey ∧ ar.projectName ≠ kbKey then none
    else some {
      id := ar.id
      title := ar.summary
      content := ar.content
      parentID :=
        match ar.parent with
        | none => none
        | some pid => if pid = "" then none else some pid
      order := 0
      url := baseURL ++ "/articles/" ++ ar.id })

/-! ## Generic helper lemmas -/

theorem foldl_inv {α β : Type} {P : β → Prop} (f : β → α → β)
    (hstep : ∀ b a, P b → P (f b a)) :
    ∀ (l : List α) (b : β), P b → P (l.foldl f b) := by
  intro l
  induction l with
  | nil => intro b hb; exact hb
  | cons x xs ih => intro b hb; exact ih (f b x) (hstep b x hb)


theorem lookupKey_nil {α : Type} (k : String) : lookupKey ([] : List (String × α)) k = none := rfl

theorem lookupKey_cons_pos {α : Type} (pr : String × α) (m : List (String × α)) (k : String)
    (h : (pr.1 == k) = true) : lookupKey (pr :: m) k = some pr.2 := by
  simp [lookupKey, List.find?, h]

theorem lookupKey_cons_neg {α : Type} (pr : String × α) (m : List (String × α)) (k : String)
    (h : (pr.1 == k) = false) : lookupKey (pr :: m) k = lookupKey m k := by
  simp [lookupKey, List.find?, h]

theorem lookupKey_upsert_self {α : Type} (m : List (String × α)) (k : String) (v : α) :
    lookupKey (upsert m k v) k = some v := by
  unfold upsert
  by_cases h : m.any (fun pr => pr.1 == k)
  · rw [if_pos h]
    induction m with
    | nil => simp at h
    | cons pr rest ih =>
      rw [List.map_cons]
      by_cases hk : (pr.1 == k) = true
      · rw [if_pos hk]
        exact lookupKey_cons_pos _ _ _ (by simp)
      · rw [if_neg hk]
        rw [lookupKey_cons_neg _ _ _ (by simpa using hk)]
        refine ih ?_
        rcases List.any_eq_true.mp h with ⟨x, hx, hpx⟩
        cases List.mem_cons.mp hx with
        | inl he => rw [he] at hpx; exact absurd hpx hk
        | inr hm => exact List.any_eq_true.mpr ⟨x, hm, hpx⟩
  · rw [if_neg h]
    induction m with
    | nil =>
      rw [List.nil_append]
      exact lookupKey_cons_pos (k, v) [] k (by simp)
    | cons pr rest ih =>
      have h2 : ¬ rest.any (fun pr => pr.1 == k) = true := by
        intro hc
        rcases List.any_eq_true.mp hc with ⟨x, hx, hpx⟩
        exact h (List.any_eq_true.mpr ⟨x, List.mem_cons_of_mem pr hx, hpx⟩)
      have hk : (pr.1 == k) = false := by
        cases hkk : pr.1 == k with
        | false => rfl
        | true => exact absurd (List.any_eq_true.mpr ⟨pr, List.mem_cons_self pr rest, hkk⟩) h
      rw [List.cons_append, lookupKey_cons_neg _ _ _ hk]
      exact ih h2

theorem lookupKey_map_overwrite {α : Type} (m : List (String × α)) (k k2 : String) (v : α)
    (hne : k2 ≠ k) :
    lookupKey (m.map (fun pr => if (pr.1 == k) = true then (k, v) else pr)) k2 =
      lookupKey m k2 := by
  induction m with
  | nil => rfl
  | cons pr rest ih =>
    rw [List.map_cons]
    by_cases hk : (pr.1 == k) = true
    · rw [if_pos hk]
      have h1 : (((k, v) : String × α).1 == k2) = false := by
        simp only [beq_eq_false_iff_ne]
        exact Ne.symm hne
      have h2 : (pr.1 == k2) = false := by
        simp only [beq_iff_eq] at hk
        simp only [beq_eq_false_iff_ne, hk]
        exact Ne.symm hne
      rw [lookupKey_cons_neg _ _ _ h1, lookupKey_cons_neg _ _ _ h2]
      exact ih
    · rw [if_neg hk]
      cases hq : (pr.1 == k2) with
      | true => rw [lookupKey_cons_pos _ _ _ hq, lookupKey_cons_pos _ _ _ hq]
      | false => rw [lookupKey_cons_neg _ _ _ hq, lookupKey_cons_neg _ _ _ hq]; exact ih

theorem lookupKey_append_one {α : Type} (m : List (String × α)) (k k2 : String) (v : α)
    (hne : k2 ≠ k) : lookupKey (m ++ [(k, v)]) k2 = lookupKey m k2 := by
  induction m with
  | nil =>
    rw [List.nil_append]
    rw [lookupKey_cons_neg _ _ _ (by simp only [beq_eq_false_iff_ne]; exact Ne.symm hne)]
  | cons pr rest ih =>
    rw [List.cons_append]
    cases hq : (pr.1 == k2) with
    | true => rw [lookupKey_cons_pos _ _ _ hq, lookupKey_cons_pos _ _ _ hq]
    | false => rw [lookupKey_cons_neg _ _ _ hq, lookupKey_cons_neg _ _ _ hq]; exact ih

theorem lookupKey_upsert_other {α : Type} (m : List (String × α)) (k k2 : String) (v : α)
    (hne : k2 ≠ k) : lookupKey (upsert m k v) k2 = lookupKey m k2 := by
  unfold upsert
  by_cases h : m.any (fun pr => pr.1 == k)
  · rw [if_pos h]; exact lookupKey_map_overwrite m k k2 v hne
  · rw [if_neg h]; exact lookupKey_append_one m k k2 v hne

theorem mem_upsert {α : Type} (m : List (String × α)) (k : String) (v : α)
    (pr : String × α) (h : pr ∈ upsert m k v) : pr ∈ m ∨ pr = (k, v) := by
  unfold upsert at h
  by_cases ha : m.any (fun q => q.1 == k)
  · rw [if_pos ha] at h
    rcases List.mem_map.mp h with ⟨q, hq, hfq⟩
    by_cases hqk : (q.1 == k) = true
    · right; rw [if_pos hqk] at hfq; exact hfq.symm
    · left; rw [if_neg hqk] at hfq; rw [← hfq]; exact hq
  · rw [if_neg ha] at h
    rcases List.mem_append.mp h with h | h
    · left; exact h
    · right; simpa using h

theorem lookupKey_mem {α : Type} (m : List (String × α)) (k : String) (v : α)
    (h : lookupKey m k = some v) : (k, v) ∈ m := by
  induction m with
  | nil => simp [lookupKey, List.find?] at h
  | cons pr rest ih =>
    cases hq : (pr.1 == k) with
    | true =>
      rw [lookupKey_cons_pos _ _ _ hq] at h
      have hv : pr.2 = v := by injection h
      have hk : pr.1 = k := by simpa using hq
      rw [← hk, ← hv]
      exact List.mem_cons_self pr rest
    | false =>
      rw [lookupKey_cons_neg _ _ _ hq] at h
      exact List.mem_cons_of_mem _ (ih h)

theorem foldl_inv_mem {α β : Type} {P : β → Prop} (l : List α) (f : β → α → β)
    (hstep : ∀ b a, a ∈ l → P b → P (f b a)) :
    ∀ b, P b → P (l.foldl f b) := by
  induction l with
  | nil => intro b hb; exact hb
  | cons x xs ih =>
    intro b hb
    exact ih (fun b a ha hb2 => hstep b a (List.mem_cons_of_mem x ha) hb2) (f b x)
      (hstep b x (List.mem_cons_self x xs) hb)

/-- Every entry of `serverByID` keys an article of the list by its own id. -/
theorem serverByID_entry (server : List Article) :
    ∀ pr ∈ serverByID server, pr.1 = pr.2.id ∧ pr.2 ∈ server := by
  unfold serverByID
  have h : ∀ (l : List Article) (m : List (String × Article)),
      (∀ pr ∈ m, pr.1 = pr.2.id ∧ pr.2 ∈ server) → (∀ b ∈ l, b ∈ server) →
      ∀ pr ∈ l.foldl (fun m b => upsert m b.id b) m, pr.1 = pr.2.id ∧ pr.2 ∈ server := by
    intro l
    induction l with
    | nil => intro m hm _; exact hm
    | cons x xs ih =>
      intro m hm hl
      rw [List.foldl_cons]
      refine ih (upsert m x.id x) ?_ (fun b hb => hl b (List.mem_cons_of_mem x hb))
      intro pr hpr
      rcases mem_upsert m x.id x pr hpr with h2 | h2
      · exact hm pr h2
      · rw [h2]; exact ⟨rfl, hl x (List.mem_cons_self x xs)⟩
  exact h server [] (by intro pr hpr; simp at hpr) (fun b hb => hb)

/-- A fold of id-keyed upserts leaves keys that never occur untouched. -/
theorem foldl_upsert_lookup_skip (l : List Article) (k : String)
    (hk : ∀ b ∈ l, b.id ≠ k) :
    ∀ m : List (String × Article),
      lookupKey (l.foldl (fun m b => upsert m b.id b) m) k = lookupKey m k := by
  induction l with
  | nil => intro m; rfl
  | cons x xs ih =>
    intro m
    rw [List.foldl_cons]
    rw [ih (fun b hb => hk b (List.mem_cons_of_mem x hb)) (upsert m x.id x)]
    exact lookupKey_upsert_other m x.id k x
      (fun hc => hk x (List.mem_cons_self x xs) hc.symm)

/-- With pairwise-distinct ids, `serverByID` resolves each article's id to
that article. -/
theorem serverByID_lookup (server : List Article) (a : Article)
    (ha : a ∈ server) (hnd : (server.map Article.id).Nodup) :
    lookupKey (serverByID server) a.id = some a := by
  unfold serverByID
  suffices h : ∀ m : List (String × Article), a ∈ server → (server.map Article.id).Nodup →
      lookupKey (server.foldl (fun m b => upsert m b.id b) m) a.id = some a by
    exact h [] ha hnd
  clear ha hnd
  induction server with
  | nil => intro m ha; simp at ha
  | cons x xs ih =>
    intro m ha hnd
    rw [List.map_cons, List.nodup_cons] at hnd
    rw [List.foldl_cons]
    cases List.mem_cons.mp ha with
    | inl he =>
      rw [he]
      have hx : ∀ b ∈ xs, b.id ≠ x.id := by
        intro b hb hc
        exact hnd.1 (hc ▸ List.mem_map_of_mem Article.id hb)
      rw [foldl_upsert_lookup_skip xs x.id hx (upsert m x.id x)]
      exact lookupKey_upsert_self m x.id x
    | inr hm => exact ih (upsert m x.id x) hm hnd.2

/-- Looking a key up in an entrywise-mapped association list. -/
theorem lookupKey_map_value {α β : Type} (m : List (String × α)) (g : α → β) (k : String) :
    lookupKey (m.map (fun pr => (pr.1, g pr.2))) k = (lookupKey m k).map g := by
  induction m with
  | nil => rfl
  | cons pr rest ih =>
    rw [List.map_cons]
    cases hq : (pr.1 == k) with
    | true =>
      rw [lookupKey_cons_pos (pr.1, g pr.2) _ _ hq, lookupKey_cons_pos pr _ _ hq]
      rfl
    | false =>
      rw [lookupKey_cons_neg (pr.1, g pr.2) _ _ hq, lookupKey_cons_neg pr _ _ hq]
      exact ih

/-! ## Claim C10: the adapter hard-codes `order = 0` -/

/-- C10: every article the remote catalog adapter's conversion returns has its
`Order` field equal to 0 — the adapter never populates the sibling sort key —
so any order-based comparison between two returned articles is between equal
keys (the strict `<` test every `sort.Slice` call uses is always false). -/
theorem c10_adapter_order_zero (responses : List ArticleResponse) (kbKey baseURL : String)
    (a : Article) (ha : a ∈ listArticlesConvert responses kbKey baseURL) :
    a.order = 0 ∧
    ∀ b ∈ listArticlesConvert responses kbKey baseURL, ¬ (a.order < b.order) := by
  have horder : ∀ c ∈ listArticlesConvert responses kbKey baseURL, c.order = 0 := by
    intro c hc
    unfold listArticlesConvert at hc
    rcases List.mem_filterMap.mp hc with ⟨ar, har, hsome⟩
    split at hsome
    · exact absurd hsome (by simp)
    · have := Option.some.inj hsome
      rw [← this]
  refine ⟨horder a ha, ?_⟩
  intro b hb
  rw [horder a ha, horder b hb]
  exact lt_irrefl 0

/-- Witness for C10 at a concrete one-element response list. -/
theorem c10_adapter_order_zero_witness :
    ({ id := "A1", summary := "t", content := "c", parent := none,
       projectId := "P", projectName := "Proj" } : ArticleResponse) ∈
        ([{ id := "A1", summary := "t", content := "c", parent := none,
            projectId := "P", projectName := "Proj" }] : List ArticleResponse) ∧
    (listArticlesConvert
        [{ id := "A1", summary := "t", content := "c", parent := none,
           projectId := "P", projectName := "Proj" }] "P" "http").length = 1 ∧
    ∀ a ∈ listArticlesConvert
        [{ id := "A1", summary := "t", content := "c", parent := none,
           projectId := "P", projectName := "Proj" }] "P" "http",
      a.order = 0 ∧
      ∀ b ∈ listArticlesConvert
          [{ id := "A1", summary := "t", content := "c", parent := none,
             projectId := "P", projectName := "Proj" }] "P" "http",
        ¬ (a.order < b.order) := by
  refine ⟨by decide, by decide, ?_⟩
  intro a ha
  exact c10_adapter_order_zero _ "P" "http" a ha

/-! ## Claim C7: single-file push -/

/-- C7: when the decoded frontmatter carries no identifier, single-file push
fails with the cannot-push error and issues zero remote calls; when it
carries one, exactly one remote update is issued and the result reports its
success or failure. -/
theorem c7_single_push (content : String) (updateOk : Bool) (md : MarkdownFile)
    (hparse : parseMarkdown content = some md) :
    (md.fm.id = "" →
      pushSinglePage content updateOk = ([], SingleResult.cannotPush md.fm.title)) ∧
    (md.fm.id ≠ "" →
      pushSinglePage content updateOk =
        ([RemoteCall.update md.fm.id md.fm.title md.content],
         if updateOk then SingleResult.updated md.fm.title
         else SingleResult.updateFailed)) := by
  constructor
  · intro h
    unfold pushSinglePage
    rw [hparse]
    simp [h]
  · intro h
    unfold pushSinglePage
    rw [hparse]
    simp [h]

/-- Witness for C7: an identifier-less file is rejected with zero calls, and
an identified file issues exactly one update. -/
theorem c7_single_push_witness :
    parseMarkdown (writeMarkdown { id := "", title := "T", url := "" } "b") =
      some { fm := { id := "", title := "T", url := "" }, content := "b" } ∧
    pushSinglePage (writeMarkdown { id := "", title := "T", url := "" } "b") true =
      ([], SingleResult.cannotPush "T") ∧
    parseMarkdown (writeMarkdown { id := "i", title := "T", url := "" } "b") =
      some { fm := { id := "i", title := "T", url := "" }, content := "b" } ∧
    pushSinglePage (writeMarkdown { id := "i", title := "T", url := "" } "b") true =
      ([RemoteCall.update "i" "T" "b"], SingleResult.updated "T") := by
  refine ⟨by decide, ?_, by decide, ?_⟩
  · exact (c7_single_push (writeMarkdown { id := "", title := "T", url := "" } "b") true
      { fm := { id := "", title := "T", url := "" }, content := "b" } (by decide)).1 rfl
  · have h := (c7_single_push (writeMarkdown { id := "i", title := "T", url := "" } "b") true
      { fm := { id := "i", title := "T", url := "" }, content := "b" } (by decide)).2
      (by decide)
    simpa using h

/-! ## Claim C8: the downloader's writes -/

/-- Article A of the section 8 download scenario. -/
def exIntro : Article :=
  { id := "A", title := "Intro", content := "ca", parentID := none, order := 0, url := "uA" }

/-- Article B of the section 8 download scenario. -/
def exSetup : Article :=
  { id := "B", title := "Setup", content := "cb", parentID := some "A", order := 0, url := "uB" }

/-- Article C of the section 8 download scenario. -/
def exAdvanced : Article :=
  { id := "C", title := "Advanced", content := "cc", parentID := some "A", order := 1, url := "uC" }

/-- C8: the downloader writes, for each node, a file named after the
sanitized title in the current target directory whose content is the encoded
identifier/title/link plus the body; with remaining fuel it recurses into the
sanitized-title subdirectory over the order-sorted children; and the section
8 scenario produces exactly Intro.md, Intro/Setup.md, Intro/Advanced.md in
that order, Setup before Advanced. -/
theorem c8_downloader :
    (∀ (all : List Article) (fuel : Nat) (base : String) (a : Article),
      (downloadArticleRecursive all fuel base a).head? =
        some (FSWrite.file (joinPath base (sanitizeFilename a.title ++ ".md"))
          (writeMarkdown { id := a.id, title := a.title, url := a.url } a.content)) ∧
      downloadArticleRecursive all (fuel + 1) base a =
        FSWrite.file (joinPath base (sanitizeFilename a.title ++ ".md"))
            (writeMarkdown { id := a.id, title := a.title, url := a.url } a.content)
          :: (goChildren all a.id).flatMap
              (fun c => downloadArticleRecursive all fuel
                (joinPath base (sanitizeFilename a.title)) c)) ∧
    runDownloadWrites [exIntro, exSetup, exAdvanced] =
      [FSWrite.file "Intro.md"
         (writeMarkdown { id := "A", title := "Intro", url := "uA" } "ca"),
       FSWrite.file "Intro/Setup.md"
         (writeMarkdown { id := "B", title := "Setup", url := "uB" } "cb"),
       FSWrite.file "Intro/Advanced.md"
         (writeMarkdown { id := "C", title := "Advanced", url := "uC" } "cc")] := by
  constructor
  · intro all fuel base a
    constructor
    · cases fuel with
      | zero => rfl
      | succ f => rfl
    · rfl
  · decide

/-! ## Key uniqueness of the built maps -/

theorem upsert_keys_nodup {α : Type} (m : List (String × α)) (k : String) (v : α)
    (h : (m.map Prod.fst).Nodup) : ((upsert m k v).map Prod.fst).Nodup := by
  unfold upsert
  by_cases ha : m.any (fun q => q.1 == k)
  · rw [if_pos ha]
    have hkeys : (m.map (fun pr => if (pr.1 == k) = true then (k, v) else pr)).map Prod.fst =
        m.map Prod.fst := by
      rw [List.map_map]
      refine List.map_congr_left ?_
      intro pr hpr
      by_cases hk : (pr.1 == k) = true
      · simp only [Function.comp_apply, hk, if_true]
        exact (by simpa using hk : pr.1 = k).symm
      · simp only [Function.comp_apply]
        rw [if_neg hk]
    rw [hkeys]
    exact h
  · rw [if_neg ha]
    rw [List.map_append]
    rw [List.nodup_append]
    refine ⟨h, List.nodup_singleton k, ?_⟩
    intro x hx hx2
    simp only [List.map_cons, List.map_nil, List.mem_singleton] at hx2
    rcases List.mem_map.mp hx with ⟨pr, hpr, hfst⟩
    apply ha
    refine List.any_eq_true.mpr ⟨pr, hpr, ?_⟩
    simp only [beq_iff_eq]
    rw [hfst, hx2]

theorem serverByID_keys_nodup (server : List Article) :
    ((serverByID server).map Prod.fst).Nodup := by
  unfold serverByID
  have h : ∀ (l : List Article) (m : List (String × Article)), (m.map Prod.fst).Nodup →
      ((l.foldl (fun m b => upsert m b.id b) m).map Prod.fst).Nodup := by
    intro l
    induction l with
    | nil => intro m hm; exact hm
    | cons x xs ih =>
      intro m hm
      rw [List.foldl_cons]
      exact ih (upsert m x.id x) (upsert_keys_nodup m x.id x hm)
  exact h server [] (by simp)

theorem loadLocal_byID_keys_nodup (locals : List (String × String)) :
    (((loadLocalMaps locals).byID).map Prod.fst).Nodup := by
  unfold loadLocalMaps
  have h : ∀ (l : List (String × String)) (m : LocalMaps), (m.byID.map Prod.fst).Nodup →
      (((l.foldl loadLocalStep m).byID).map Prod.fst).Nodup := by
    intro l
    induction l with
    | nil => intro m hm; exact hm
    | cons x xs ih =>
      intro m hm
      rw [List.foldl_cons]
      refine ih _ ?_
      unfold loadLocalStep
      cases hp : parseMarkdown x.2 with
      | none => simpa [hp] using hm
      | some md =>
        by_cases hid : md.fm.id = ""
        · simpa [hp, hid] using hm
        · simpa [hp, hid] using upsert_keys_nodup m.byID md.fm.id md hm
  exact h locals { byID := [], paths := [], byPath := [] } (by simp)

theorem mem_lookupKey {α : Type} (m : List (String × α)) (pr : String × α)
    (hmem : pr ∈ m) (hnd : (m.map Prod.fst).Nodup) : lookupKey m pr.1 = some pr.2 := by
  induction m with
  | nil => simp at hmem
  | cons q rest ih =>
    rw [List.map_cons, List.nodup_cons] at hnd
    cases List.mem_cons.mp hmem with
    | inl he =>
      rw [he]
      exact lookupKey_cons_pos q rest q.1 (by simp)
    | inr hm =>
      have hne : (q.1 == pr.1) = false := by
        simp only [beq_eq_false_iff_ne]
        intro hc
        exact hnd.1 (hc ▸ List.mem_map_of_mem Prod.fst hm)
      rw [lookupKey_cons_neg q rest pr.1 hne]
      exact ih hm hnd.2

/-! ## Claims C5 and C6: bulk push safety and confirmation gating -/

/-- Local snapshot of the section 8 bulk push scenario: file `a.md` matches
server article 1 with equal content `x`, file `b.md` matches server article 2
with changed content `z`. -/
def pushScenLocals : List (String × String) :=
  [("a.md", writeMarkdown { id := "1", title := "A", url := "" } "x"),
   ("b.md", writeMarkdown { id := "2", title := "B", url := "" } "z")]

/-- Server catalog of the section 8 bulk push scenario. -/
def pushScenServer : List Article :=
  [{ id := "1", title := "A", content := "x", parentID := none, order := 0, url := "u1" },
   { id := "2", title := "B", content := "y", parentID := none, order := 0, url := "u2" }]

/-- C5: every remote call bulk push ever issues is an update for an id that
is carried by a local file, exists on the server, and whose trimmed local
content differs from the trimmed server content; no call is ever a create or
a delete; and every locally-deleted server article is reported only as a
warning carrying its title and canonical link. -/
theorem c5_push_safety (locals : List (String × String)) (server : List Article)
    (resp : Option String) :
    (∀ c ∈ (pushAllChanges locals server resp).1,
      ∃ i md sa, c = RemoteCall.update i md.fm.title md.content ∧
        lookupKey (loadLocalMaps locals).byID i = some md ∧
        lookupKey (serverByID server) i = some sa ∧
        goTrim md.content ≠ goTrim sa.content) ∧
    (∀ c ∈ (pushAllChanges locals server resp).1,
      (∀ i, c ≠ RemoteCall.delete i) ∧ ∀ t b, c ≠ RemoteCall.create t b) ∧
    (∀ w ∈ deletionWarnings locals server,
      ∃ sa, lookupKey (serverByID server) sa.id = some sa ∧
        lookupKey (loadLocalMaps locals).byID sa.id = none ∧ w = (sa.title, sa.url)) := by
  have hcall : ∀ c ∈ (pushAllChanges locals server resp).1,
      ∃ i md sa, c = RemoteCall.update i md.fm.title md.content ∧
        lookupKey (loadLocalMaps locals).byID i = some md ∧
        lookupKey (serverByID server) i = some sa ∧
        goTrim md.content ≠ goTrim sa.content := by
    intro c hc
    unfold pushAllChanges at hc
    by_cases hplan : pagesToPush locals server = [] ∧ newPages locals server = []
    · rw [if_pos hplan] at hc
      simp at hc
    · rw [if_neg hplan] at hc
      split at hc
      · simp at hc
      · split at hc
        · dsimp only at hc
          rcases List.mem_map.mp hc with ⟨it, hit, hfc⟩
          unfold pagesToPush at hit
          rcases List.mem_filterMap.mp hit with ⟨pr, hpr, hg⟩
          split at hg
          next => simp at hg
          next sa hlook =>
            split at hg
            next htrim => simp at hg
            next htrim =>
              have hit2 := Option.some.inj hg
              have hbid : lookupKey (loadLocalMaps locals).byID pr.1 = some pr.2 :=
                mem_lookupKey _ pr hpr (loadLocal_byID_keys_nodup locals)
              refine ⟨pr.1, pr.2, sa, ?_, hbid, hlook, htrim⟩
              rw [← hfc, ← hit2]
              simp [hbid]
        · simp at hc
  refine ⟨hcall, ?_, ?_⟩
  · intro c hc
    rcases hcall c hc with ⟨i, md, sa, hceq, -, -, -⟩
    rw [hceq]
    exact ⟨fun i2 h => RemoteCall.noConfusion h, fun t b h => RemoteCall.noConfusion h⟩
  · intro w hw
    unfold deletionWarnings at hw
    rcases List.mem_filterMap.mp hw with ⟨pr, hpr, hg⟩
    by_cases hbid : lookupKey (loadLocalMaps locals).byID pr.1 = none
    · rw [if_pos hbid] at hg
      have hw2 := Option.some.inj hg
      have hent := serverByID_entry server pr hpr
      refine ⟨pr.2, ?_, ?_, hw2.symm⟩
      · rw [← hent.1]
        exact mem_lookupKey _ pr hpr (serverByID_keys_nodup server)
      · rw [← hent.1]
        exact hbid
    · rw [if_neg hbid] at hg
      simp at hg

/-- Witness for C5 on the section 8 scenario: the one issued call is the
eligible update for id 2. -/
theorem c5_push_safety_witness :
    RemoteCall.update "2" "B" "z" ∈
      (pushAllChanges pushScenLocals pushScenServer (some "y")).1 ∧
    (∃ i md sa, RemoteCall.update "2" "B" "z" = RemoteCall.update i md.fm.title md.content ∧
      lookupKey (loadLocalMaps pushScenLocals).byID i = some md ∧
      lookupKey (serverByID pushScenServer) i = some sa ∧
      goTrim md.content ≠ goTrim sa.content) := by
  have hmem : RemoteCall.update "2" "B" "z" ∈
      (pushAllChanges pushScenLocals pushScenServer (some "y")).1 := by decide
  exact ⟨hmem, (c5_push_safety pushScenLocals pushScenServer (some "y")).1 _ hmem⟩

/-- C6: with an empty update plan and no new files, bulk push reports no
changes and never prompts; otherwise it prompts, any response other than a
trimmed case-insensitive `y`/`yes` (or a failed read) yields zero calls, and
an affirmative response proceeds with exactly one update per planned item.
On the section 8 scenario, declining issues zero calls and accepting issues
exactly the one update for id 2 with content `z`. -/
theorem c6_push_confirmation (locals : List (String × String)) (server : List Article)
    (resp : Option String) :
    (pagesToPush locals server = [] ∧ newPages locals server = [] →
      pushAllChanges locals server resp = ([], false, PushOutcome.noChanges)) ∧
    (¬ (pagesToPush locals server = [] ∧ newPages locals server = []) →
      (pushAllChanges locals server resp).2.1 = true ∧
      (∀ r, resp = some r → affirmative r = false →
        pushAllChanges locals server resp = ([], true, PushOutcome.cancelled)) ∧
      (resp = none → pushAllChanges locals server resp = ([], true, PushOutcome.readErr)) ∧
      (∀ r, resp = some r → affirmative r = true →
        (pushAllChanges locals server resp).2.2 = PushOutcome.pushed ∧
        (pushAllChanges locals server resp).1.length = (pagesToPush locals server).length)) ∧
    (affirmative "y" = true ∧ affirmative "Yes" = true ∧ affirmative " YES " = true ∧
     affirmative "" = false ∧ affirmative "n" = false) ∧
    pushAllChanges pushScenLocals pushScenServer (some "n") =
      ([], true, PushOutcome.cancelled) ∧
    pushAllChanges pushScenLocals pushScenServer (some "y") =
      ([RemoteCall.update "2" "B" "z"], true, PushOutcome.pushed) := by
  refine ⟨?_, ?_, by decide, by decide, by decide⟩
  · intro h
    unfold pushAllChanges
    rw [if_pos h]
  · intro h
    refine ⟨?_, ?_, ?_, ?_⟩
    · unfold pushAllChanges
      rw [if_neg h]
      cases resp with
      | none => rfl
      | some r =>
        by_cases haff : affirmative r = true
        · simp [haff]
        · simp [haff]
    · intro r hr haff
      rw [hr]
      unfold pushAllChanges
      rw [if_neg h]
      simp [haff]
    · intro hr
      rw [hr]
      unfold pushAllChanges
      rw [if_neg h]
    · intro r hr haff
      rw [hr]
      unfold pushAllChanges
      rw [if_neg h]
      simp [haff, List.length_map]

/-- Witness for C6 on the section 8 scenario: the plan is non-empty, so the
prompt is shown and declining cancels with zero calls. -/
theorem c6_push_confirmation_witness :
    ¬ (pagesToPush pushScenLocals pushScenServer = [] ∧
       newPages pushScenLocals pushScenServer = []) ∧
    pushAllChanges pushScenLocals pushScenServer (some "n") =
      ([], true, PushOutcome.cancelled) := by
  have hne : ¬ (pagesToPush pushScenLocals pushScenServer = [] ∧
      newPages pushScenLocals pushScenServer = []) := by decide
  exact ⟨hne,
    ((c6_push_confirmation pushScenLocals pushScenServer (some "n")).2.1 hne).2.1 "n" rfl
      (by decide)⟩

/-! ## Claim C2: reconciler status assignment -/

theorem loadLocalStep_byID_lookup (m : LocalMaps) (x : String × String) (i : String)
    (hi : i ≠ "") :
    (lookupKey (loadLocalStep m x).byID i).isSome ↔
      ((lookupKey m.byID i).isSome ∨
        ∃ md, parseMarkdown x.2 = some md ∧ md.fm.id = i) := by
  unfold loadLocalStep
  cases hp : parseMarkdown x.2 with
  | none => simp [hp]
  | some md =>
    dsimp only
    by_cases hid : md.fm.id = ""
    · rw [if_pos hid]
      dsimp only
      constructor
      · intro h
        exact Or.inl h
      · rintro (h | ⟨md2, hmd2, hmi⟩)
        · exact h
        · have hmd : md = md2 := Option.some.inj hmd2
          rw [← hmd] at hmi
          rw [← hmi] at hi
          exact absurd hid hi
    · rw [if_neg hid]
      dsimp only
      by_cases hii : i = md.fm.id
      · rw [hii, lookupKey_upsert_self]
        simp only [Option.isSome_some, true_iff]
        exact Or.inr ⟨md, rfl, rfl⟩
      · rw [lookupKey_upsert_other m.byID md.fm.id i md hii]
        constructor
        · intro h
          exact Or.inl h
        · rintro (h | ⟨md2, hmd2, hmi⟩)
          · exact h
          · have hmd : md = md2 := Option.some.inj hmd2
            rw [← hmd] at hmi
            exact absurd hmi.symm hii

theorem loadLocal_byID_lookup_aux (l : List (String × String)) (i : String) (hi : i ≠ "") :
    ∀ m : LocalMaps,
      (lookupKey (l.foldl loadLocalStep m).byID i).isSome ↔
        ((lookupKey m.byID i).isSome ∨
          ∃ pr ∈ l, ∃ md, parseMarkdown pr.2 = some md ∧ md.fm.id = i) := by
  induction l with
  | nil => intro m; simp
  | cons x xs ih =>
    intro m
    rw [List.foldl_cons, ih (loadLocalStep m x), loadLocalStep_byID_lookup m x i hi,
      List.exists_mem_cons_iff]
    exact or_assoc

/-- C2: for a server article whose id some local file carries, the status map
classifies it `unchanged` exactly when the trimmed contents match and
`modified` otherwise (comparing against the surviving indexed file); when no
local file carries the id it is classified `deleted-locally`; and carrying
the id is precisely what makes the id-lookup succeed, regardless of how many
identifier-less local files exist. -/
theorem c2_reconciler_status (server : List Article) (locals : List (String × String))
    (a : Article) (ha : a ∈ server) (hnd : (server.map Article.id).Nodup)
    (hne : a.id ≠ "") :
    (∀ md, lookupKey (loadLocalMaps locals).byID a.id = some md →
      lookupKey (articleStatusMap server (loadLocalMaps locals)) a.id =
        some (if goTrim md.content = goTrim a.content then ArticleStatus.unchanged
              else ArticleStatus.modified)) ∧
    (lookupKey (loadLocalMaps locals).byID a.id = none →
      lookupKey (articleStatusMap server (loadLocalMaps locals)) a.id =
        some ArticleStatus.deleted) ∧
    ((lookupKey (loadLocalMaps locals).byID a.id).isSome ↔
      ∃ pr ∈ locals, ∃ md, parseMarkdown pr.2 = some md ∧ md.fm.id = a.id) := by
  have hstatus : lookupKey (articleStatusMap server (loadLocalMaps locals)) a.id =
      some (statusEntry (loadLocalMaps locals) a) := by
    unfold articleStatusMap
    rw [lookupKey_map_value, serverByID_lookup server a ha hnd]
    rfl
  refine ⟨?_, ?_, ?_⟩
  · intro md hmd
    rw [hstatus]
    unfold statusEntry
    rw [hmd]
  · intro hnone
    rw [hstatus]
    unfold statusEntry
    rw [hnone]
  · have h := loadLocal_byID_lookup_aux locals a.id hne
      { byID := [], paths := [], byPath := [] }
    unfold loadLocalMaps
    rw [h]
    simp [lookupKey]

/-- Witness for C2: server article 1 is matched by an equal-content local
file (status unchanged) while the identifier-less local file does not affect
it. -/
theorem c2_reconciler_status_witness :
    (({ id := "1", title := "A", content := "x", parentID := none, order := 0,
        url := "u1" } : Article) ∈ pushScenServer ∧
      (pushScenServer.map Article.id).Nodup ∧
      ("1" : String) ≠ "") ∧
    (∀ md, lookupKey (loadLocalMaps pushScenLocals).byID "1" = some md →
      lookupKey (articleStatusMap pushScenServer (loadLocalMaps pushScenLocals)) "1" =
        some (if goTrim md.content = goTrim "x" then ArticleStatus.unchanged
              else ArticleStatus.modified)) ∧
    (lookupKey (loadLocalMaps pushScenLocals).byID "1" = none →
      lookupKey (articleStatusMap pushScenServer (loadLocalMaps pushScenLocals)) "1" =
        some ArticleStatus.deleted) ∧
    ((lookupKey (loadLocalMaps pushScenLocals).byID "1").isSome ↔
      ∃ pr ∈ pushScenLocals, ∃ md, parseMarkdown pr.2 = some md ∧ md.fm.id = "1") := by
  refine ⟨⟨by decide, by decide, by decide⟩, ?_⟩
  exact c2_reconciler_status pushScenServer pushScenLocals
    { id := "1", title := "A", content := "x", parentID := none, order := 0, url := "u1" }
    (by decide) (by decide) (by decide)

/-! ## Claim C3: sibling ordering -/

instance artOrderTotal : IsTotal Article (fun a b => a.order ≤ b.order) :=
  ⟨fun a b => Int.le_total a.order b.order⟩

instance artOrderTrans : IsTrans Article (fun a b => a.order ≤ b.order) :=
  ⟨fun _ _ _ => Int.le_trans⟩

theorem goChildren_sorted (all : List Article) (i : String) :
    List.Sorted (fun a b => a.order ≤ b.order) (goChildren all i) :=
  List.sorted_insertionSort (fun a b => a.order ≤ b.order) (childrenArticles all i)

theorem goChildren_perm (all : List Article) (i : String) :
    List.Perm (goChildren all i) (childrenArticles all i) := by
  unfold goChildren sortByOrder
  exact List.perm_insertionSort (fun a b => a.order ≤ b.order) (childrenArticles all i)

theorem art_buildTreeNode (all : List Article) (f : Nat) (a : Article) :
    (buildTreeNode all f a).art = a := by
  cases f with
  | zero => rfl
  | succ f2 => rfl

theorem mem_nodesF (ns : List TNode) (t : TNode) :
    t ∈ nodesF ns ↔ ∃ n ∈ ns, t ∈ nodesN n := by
  induction ns with
  | nil => simp [nodesF]
  | cons n rest ih =>
    rw [show nodesF (n :: rest) = nodesN n ++ nodesF rest from rfl]
    rw [List.mem_append, ih]
    simp [List.mem_cons, or_and_right, exists_or, exists_eq_left]

/-- Every node inside a built tree is itself a built tree for its own
article (with some remaining fuel). -/
theorem nodes_of_build (all : List Article) :
    ∀ (f : Nat) (a : Article) (t : TNode), t ∈ nodesN (buildTreeNode all f a) →
      ∃ f2, t = buildTreeNode all f2 t.art := by
  intro f
  induction f with
  | zero =>
    intro a t ht
    rw [show buildTreeNode all 0 a = TNode.mk a [] from rfl] at ht
    rw [show nodesN (TNode.mk a []) = [TNode.mk a []] from rfl] at ht
    rw [List.mem_singleton] at ht
    refine ⟨0, ?_⟩
    rw [ht]
    rfl
  | succ f2 ih =>
    intro a t ht
    rw [show buildTreeNode all (f2+1) a =
      TNode.mk a ((goChildren all a.id).map (fun c => buildTreeNode all f2 c)) from rfl] at ht
    rw [show nodesN (TNode.mk a ((goChildren all a.id).map (fun c => buildTreeNode all f2 c))) =
      TNode.mk a ((goChildren all a.id).map (fun c => buildTreeNode all f2 c)) ::
        nodesF ((goChildren all a.id).map (fun c => buildTreeNode all f2 c)) from rfl] at ht
    cases List.mem_cons.mp ht with
    | inl he =>
      refine ⟨f2 + 1, ?_⟩
      rw [he]
      rfl
    | inr hm =>
      rcases (mem_nodesF _ t).mp hm with ⟨n, hn, htn⟩
      rcases List.mem_map.mp hn with ⟨c, hc, hbc⟩
      rw [← hbc] at htn
      exact ih c t htn

/-- The children of any node of a built tree are the order-sorted children of
its article (or empty at exhausted fuel), so their orders are sorted. -/
theorem nodes_subs_sorted (all : List Article) (f : Nat) (a : Article) (t : TNode)
    (ht : t ∈ nodesN (buildTreeNode all f a)) :
    List.Sorted (fun x y => x ≤ y) (t.subs.map (fun n => n.art.order)) := by
  rcases nodes_of_build all f a t ht with ⟨f2, h2⟩
  cases f2 with
  | zero =>
    rw [h2]
    exact List.sorted_nil
  | succ f3 =>
    rw [h2]
    rw [show (buildTreeNode all (f3+1) t.art).subs =
      (goChildren all t.art.id).map (fun c => buildTreeNode all f3 c) from rfl]
    rw [List.map_map]
    have hsor := goChildren_sorted all t.art.id
    refine List.Pairwise.map _ ?_ hsor
    intro x y hxy
    simpa [art_buildTreeNode] using hxy

/-- Parent article of the C3 counterexample. -/
def exOrdA : Article :=
  { id := "A", title := "p", content := "", parentID := none, order := 0, url := "" }

/-- First equal-order child (earlier in the input list). -/
def exOrdB : Article :=
  { id := "B", title := "b", content := "", parentID := some "A", order := 0, url := "" }

/-- Second equal-order child (later in the input list). -/
def exOrdC : Article :=
  { id := "C", title := "c", content := "", parentID := some "A", order := 0, url := "" }

/-- C3 counterexample: the children of A are gathered from a Go map (iteration
order unspecified) and sorted with the unstable `sort.Slice`, so the reversed
sequence `[C, B]` is an admissible outcome for the equal-order children
`[B, C]` even though it does not preserve the input's relative order — the
stable tie-break the claim asserts is not guaranteed by the code. -/
theorem c3_sibling_order_counterexample :
    goSortAdmissible [exOrdA, exOrdB, exOrdC] "A" [exOrdC, exOrdB] ∧
    childrenArticles [exOrdA, exOrdB, exOrdC] "A" = [exOrdB, exOrdC] ∧
    exOrdB ≠ exOrdC ∧ exOrdB.order = exOrdC.order ∧
    [exOrdC, exOrdB] ≠ [exOrdB, exOrdC] := by
  refine ⟨⟨?_, ?_⟩, by decide, by decide, by decide, by decide⟩
  · have h : childrenArticles [exOrdA, exOrdB, exOrdC] "A" = [exOrdB, exOrdC] := by decide
    rw [h]
    exact List.Perm.swap exOrdB exOrdC []
  · refine List.sorted_cons.mpr ⟨?_, List.sorted_singleton _⟩
    intro b hb
    rw [List.mem_singleton.mp hb]
    decide

/-- C3 amended: within one parent — both in the deterministic model and for
every admissible outcome of the Go gather-and-sort, and at every node of the
built diff forest — the children sequence is non-decreasing in `order` and is
a permutation of the matching articles; the relative order of equal-order
children is left unspecified by the code (unstable sort over unspecified map
iteration), not stable as claimed. -/
theorem c3_sibling_order_amended (all : List Article) (i : String) :
    List.Sorted (fun a b => a.order ≤ b.order) (goChildren all i) ∧
    List.Perm (goChildren all i) (childrenArticles all i) ∧
    (∀ out, goSortAdmissible all i out →
      List.Sorted (fun a b => a.order ≤ b.order) out ∧
      List.Perm out (childrenArticles all i)) ∧
    (∀ m ∈ nodesF (buildServerForest all),
      List.Sorted (fun x y => x ≤ y) (m.subs.map (fun n => n.art.order))) := by
  refine ⟨goChildren_sorted all i, goChildren_perm all i, ?_, ?_⟩
  · intro out hout
    exact ⟨hout.2, hout.1⟩
  · intro m hm
    rcases (mem_nodesF _ m).mp hm with ⟨n, hn, hmn⟩
    unfold buildServerForest at hn
    rcases List.mem_map.mp hn with ⟨r, hr, hbr⟩
    rw [← hbr] at hmn
    exact nodes_subs_sorted all all.length r m hmn

/-- Witness for C3 amended at the counterexample input, including one
admissible outcome. -/
theorem c3_sibling_order_witness :
    List.Sorted (fun a b => a.order ≤ b.order) (goChildren [exOrdA, exOrdB, exOrdC] "A") ∧
    (goSortAdmissible [exOrdA, exOrdB, exOrdC] "A" [exOrdC, exOrdB] →
      List.Sorted (fun a b => a.order ≤ b.order) [exOrdC, exOrdB] ∧
      List.Perm [exOrdC, exOrdB] (childrenArticles [exOrdA, exOrdB, exOrdC] "A")) := by
  refine ⟨(c3_sibling_order_amended [exOrdA, exOrdB, exOrdC] "A").1, ?_⟩
  exact (c3_sibling_order_amended [exOrdA, exOrdB, exOrdC] "A").2.2.1 [exOrdC, exOrdB]

/-! ## Claim C4: insertion of identifier-less local files -/

mutual

/-- All nodes of a diff tree, preorder. -/
def dnodesN : DiffNode → List DiffNode
  | .mk i t st cs p => .mk i t st cs p :: dnodesF cs

/-- All nodes of a diff forest, preorder. -/
def dnodesF : List DiffNode → List DiffNode
  | [] => []
  | t :: ts => dnodesN t ++ dnodesF ts

end

theorem countF_append (a b : List DiffNode) : countF (a ++ b) = countF a + countF b := by
  induction a with
  | nil =>
    rw [List.nil_append]
    rw [show countF ([] : List DiffNode) = 0 from rfl]
    omega
  | cons t ts ih =>
    rw [List.cons_append]
    rw [show countF (t :: (ts ++ b)) = countD t + countF (ts ++ b) from rfl, ih,
      show countF (t :: ts) = countD t + countF ts from rfl]
    omega

/-- A successful attach adds exactly the new node's size to the forest. -/
theorem attachInForest_count (dir : String) (new : DiffNode) (ns : List DiffNode) :
    ∀ ns2, attachInForest dir new ns = some ns2 → countF ns2 = countF ns + countD new := by
  induction ns using attachInForest.induct dir new with
  | case1 =>
    intro ns2 h
    simp [attachInForest] at h
  | case2 i t st cs p ns hcond =>
    intro ns2 h
    rw [show attachInForest dir new (DiffNode.mk i t st cs p :: ns) =
      some (DiffNode.mk i t st (cs ++ [new]) p :: ns) by
        unfold attachInForest; rw [if_pos hcond]] at h
    rw [← Option.some.inj h]
    rw [show countF (DiffNode.mk i t st (cs ++ [new]) p :: ns) =
      (1 + countF (cs ++ [new])) + countF ns from rfl]
    rw [show countF (DiffNode.mk i t st cs p :: ns) = (1 + countF cs) + countF ns from rfl]
    rw [countF_append]
    rw [show countF [new] = countD new + 0 from rfl]
    omega
  | case3 i t st cs p ns hcond cs2 hcs ihcs =>
    intro ns2 h
    rw [show attachInForest dir new (DiffNode.mk i t st cs p :: ns) =
      some (DiffNode.mk i t st cs2 p :: ns) by
        unfold attachInForest; rw [if_neg hcond, hcs]] at h
    rw [← Option.some.inj h]
    rw [show countF (DiffNode.mk i t st cs2 p :: ns) = (1 + countF cs2) + countF ns from rfl]
    rw [show countF (DiffNode.mk i t st cs p :: ns) = (1 + countF cs) + countF ns from rfl]
    rw [ihcs cs2 hcs]
    omega
  | case4 i t st cs p ns hcond hcs ns3 hns ihcs ihns =>
    intro ns2 h
    rw [show attachInForest dir new (DiffNode.mk i t st cs p :: ns) =
      some (DiffNode.mk i t st cs p :: ns3) by
        unfold attachInForest; rw [if_neg hcond, hcs, hns]] at h
    rw [← Option.some.inj h]
    rw [show countF (DiffNode.mk i t st cs p :: ns3) = (1 + countF cs) + countF ns3 from rfl]
    rw [show countF (DiffNode.mk i t st cs p :: ns) = (1 + countF cs) + countF ns from rfl]
    rw [ihns ns3 hns]
    omega
  | case5 i t st cs p ns hcond hcs hns ihcs ihns =>
    intro ns2 h
    rw [show attachInForest dir new (DiffNode.mk i t st cs p :: ns) = none by
      unfold attachInForest; rw [if_neg hcond, hcs, hns]] at h
    exact absurd h (by simp)

/-- The attach fails exactly when no node anywhere in the forest has a
non-empty path whose containing directory is the target. -/
theorem attachInForest_none_iff (dir : String) (new : DiffNode) (ns : List DiffNode) :
    attachInForest dir new ns = none ↔
      ∀ m ∈ dnodesF ns, ¬ (m.nodePath ≠ "" ∧ dirOf m.nodePath = dir) := by
  induction ns using attachInForest.induct dir new with
  | case1 =>
    simp [attachInForest, dnodesF]
  | case2 i t st cs p ns hcond =>
    rw [show attachInForest dir new (DiffNode.mk i t st cs p :: ns) =
      some (DiffNode.mk i t st (cs ++ [new]) p :: ns) by
        unfold attachInForest; rw [if_pos hcond]]
    constructor
    · intro h; exact absurd h (by simp)
    · intro h
      exact absurd (h (DiffNode.mk i t st cs p) (by
        rw [show dnodesF (DiffNode.mk i t st cs p :: ns) =
          (DiffNode.mk i t st cs p :: dnodesF cs) ++ dnodesF ns from rfl]
        exact List.mem_append_left _ (List.mem_cons_self _ _)))
        (not_not_intro hcond)
  | case3 i t st cs p ns hcond cs2 hcs ihcs =>
    rw [show attachInForest dir new (DiffNode.mk i t st cs p :: ns) =
      some (DiffNode.mk i t st cs2 p :: ns) by
        unfold attachInForest; rw [if_neg hcond, hcs]]
    constructor
    · intro h; exact absurd h (by simp)
    · intro h
      have hcs2 : attachInForest dir new cs = none := by
        rw [ihcs]
        intro m hm
        refine h m ?_
        rw [show dnodesF (DiffNode.mk i t st cs p :: ns) =
          (DiffNode.mk i t st cs p :: dnodesF cs) ++ dnodesF ns from rfl]
        exact List.mem_append_left _ (List.mem_cons_of_mem _ hm)
      rw [hcs2] at hcs
      exact absurd hcs (by simp)
  | case4 i t st cs p ns hcond hcs ns3 hns ihcs ihns =>
    rw [show attachInForest dir new (DiffNode.mk i t st cs p :: ns) =
      some (DiffNode.mk i t st cs p :: ns3) by
        unfold attachInForest; rw [if_neg hcond, hcs, hns]]
    constructor
    · intro h; exact absurd h (by simp)
    · intro h
      have hns2 : attachInForest dir new ns = none := by
        rw [ihns]
        intro m hm
        refine h m ?_
        rw [show dnodesF (DiffNode.mk i t st cs p :: ns) =
          (DiffNode.mk i t st cs p :: dnodesF cs) ++ dnodesF ns from rfl]
        exact List.mem_append_right _ hm
      rw [hns2] at hns
      exact absurd hns (by simp)
  | case5 i t st cs p ns hcond hcs hns ihcs ihns =>
    rw [show attachInForest dir new (DiffNode.mk i t st cs p :: ns) = none by
      unfold attachInForest; rw [if_neg hcond, hcs, hns]]
    constructor
    · intro _ m hm
      rw [show dnodesF (DiffNode.mk i t st cs p :: ns) =
        (DiffNode.mk i t st cs p :: dnodesF cs) ++ dnodesF ns from rfl] at hm
      rcases List.mem_append.mp hm with hm | hm
      · rcases List.mem_cons.mp hm with he | hm
        · rw [he]
          exact hcond
        · exact (ihcs.mp hcs) m hm
      · exact (ihns.mp hns) m hm
    · intro _
      rfl

theorem insertNewLocal_count (f : List DiffNode) (path : String) (md : MarkdownFile) :
    countF (insertNewLocal f path md) = countF f + 1 := by
  unfold insertNewLocal
  by_cases hdir : dirOf path = "."
  · rw [if_pos hdir, countF_append]
    rw [show countF [newLocalNode path md] = 1 from rfl]
  · rw [if_neg hdir]
    split
    next f2 hat =>
      rw [attachInForest_count _ _ f f2 hat]
      rw [show countD (newLocalNode path md) = 1 from rfl]
    next hat =>
      rw [countF_append]
      rw [show countF [newLocalNode path md] = 1 from rfl]

theorem addNewLocals_count (files : List (String × MarkdownFile)) :
    ∀ forest, countF (addNewLocals forest files) = countF forest + files.length := by
  induction files with
  | nil =>
    intro forest
    rfl
  | cons x xs ih =>
    intro forest
    rw [show addNewLocals forest (x :: xs) = addNewLocals (insertNewLocal forest x.1 x.2) xs
      from rfl]
    rw [ih, insertNewLocal_count]
    rw [List.length_cons]
    omega

/-- C4: the new-local loop inserts exactly one node per identifier-less file
(no file is dropped and nothing errors — the total node count grows by
exactly the number of files); each file is attached as a root when its
directory is the sync root, as a child of the attach-found node when the
recursive path search succeeds, and as a root when it fails; and the search
fails exactly when no node anywhere in the forest (including previously
inserted new-local nodes) has a non-empty path whose containing directory is
the target. -/
theorem c4_new_local_insertion (forest : List DiffNode) (files : List (String × MarkdownFile)) :
    countF (addNewLocals forest files) = countF forest + files.length ∧
    (∀ (f : List DiffNode) (path : String) (md : MarkdownFile),
      (dirOf path = "." → insertNewLocal f path md = f ++ [newLocalNode path md]) ∧
      (dirOf path ≠ "." →
        (∀ f2, attachInForest (dirOf path) (newLocalNode path md) f = some f2 →
          insertNewLocal f path md = f2) ∧
        (attachInForest (dirOf path) (newLocalNode path md) f = none →
          insertNewLocal f path md = f ++ [newLocalNode path md]))) ∧
    (∀ (dir : String) (new : DiffNode) (ns : List DiffNode),
      attachInForest dir new ns = none ↔
        ∀ m ∈ dnodesF ns, ¬ (m.nodePath ≠ "" ∧ dirOf m.nodePath = dir)) := by
  refine ⟨addNewLocals_count files forest, ?_,
    fun dir new ns => attachInForest_none_iff dir new ns⟩
  intro f path md
  constructor
  · intro h
    unfold insertNewLocal
    rw [if_pos h]
  · intro h
    constructor
    · intro f2 hat
      unfold insertNewLocal
      rw [if_neg h, hat]
    · intro hat
      unfold insertNewLocal
      rw [if_neg h, hat]

/-- Witness for C4: one identifier-less file in directory `A` attaches as a
child of the node whose path's directory is `A`, and the node count grows by
one. -/
theorem c4_new_local_insertion_witness :
    countF (addNewLocals [DiffNode.mk "S1" "t1" ArticleStatus.unchanged [] "A/x.md"]
        [("A/y.md", { fm := { id := "", title := "New", url := "" }, content := "c" })]) =
      countF [DiffNode.mk "S1" "t1" ArticleStatus.unchanged [] "A/x.md"] + 1 ∧
    dirOf "A/y.md" ≠ "." ∧
    insertNewLocal [DiffNode.mk "S1" "t1" ArticleStatus.unchanged [] "A/x.md"] "A/y.md"
        { fm := { id := "", title := "New", url := "" }, content := "c" } =
      [DiffNode.mk "S1" "t1" ArticleStatus.unchanged
        [newLocalNode "A/y.md" { fm := { id := "", title := "New", url := "" }, content := "c" }]
        "A/x.md"] := by
  refine ⟨(c4_new_local_insertion
    [DiffNode.mk "S1" "t1" ArticleStatus.unchanged [] "A/x.md"]
    [("A/y.md", { fm := { id := "", title := "New", url := "" }, content := "c" })]).1,
    by decide, ?_⟩
  have h := ((c4_new_local_insertion
    [DiffNode.mk "S1" "t1" ArticleStatus.unchanged [] "A/x.md"]
    [("A/y.md", { fm := { id := "", title := "New", url := "" }, content := "c" })]).2.1
    [DiffNode.mk "S1" "t1" ArticleStatus.unchanged [] "A/x.md"] "A/y.md"
    { fm := { id := "", title := "New", url := "" }, content := "c" }).2 (by decide)
  refine h.1 _ ?_
  rw [show dirOf "A/y.md" = "A" from rfl]
  simp [attachInForest, show dirOf "A/x.md" = "A" from rfl]

/-! ## Claim C9: markdown round-trip -/

/-- A character yaml.v3 accepts anywhere in an unquoted plain one-line
scalar without changing the encoding: alphanumerics, space, underscore, dot,
slash. -/
def plainChar (c : Char) : Bool :=
  c.isAlphanum || c == ' ' || c == '_' || c == '.' || c == '/'

/-- A metadata value that yaml.v3 emits exactly as `marshalFM` does — an
unquoted plain one-line scalar: nonempty, plain characters only, not
starting or ending with a space. -/
def plainScalar (s : String) : Bool :=
  !s.isEmpty && s.data.all plainChar &&
  s.data.head? != some ' ' && s.data.getLast? != some ' '

theorem plainChar_excl (c : Char) (h : plainChar c = true) :
    c ≠ '-' ∧ c ≠ '\n' ∧ c ≠ ':' := by
  refine ⟨?_, ?_, ?_⟩ <;> intro he <;> subst he <;> revert h <;> decide

theorem plain_all (s : String) (h : plainScalar s = true) :
    ∀ c ∈ s.data, c ≠ '-' ∧ c ≠ '\n' ∧ c ≠ ':' := by
  intro c hc
  unfold plainScalar at h
  simp only [Bool.and_eq_true] at h
  exact plainChar_excl c (List.all_eq_true.mp h.1.1.2 c hc)

theorem leadsWith_append_self (p r : List Char) : leadsWith p (p ++ r) = true := by
  induction p with
  | nil => rfl
  | cons c cs ih =>
    rw [List.cons_append]
    simp only [leadsWith, beq_self_eq_true, Bool.true_and]
    exact ih

theorem indexOfSub_self (p r : List Char) (hp : p ≠ []) :
    indexOfSub p (p ++ r) = some 0 := by
  cases p with
  | nil => exact absurd rfl hp
  | cons c cs =>
    rw [List.cons_append]
    simp only [indexOfSub]
    rw [if_pos]
    rw [← List.cons_append]
    exact leadsWith_append_self (c :: cs) r

theorem indexOfSub_append (h0 : Char) (pt pre rest : List Char)
    (hpre : ∀ c ∈ pre, c ≠ h0) :
    indexOfSub (h0 :: pt) (pre ++ rest) =
      (indexOfSub (h0 :: pt) rest).map (· + pre.length) := by
  induction pre with
  | nil =>
    rw [List.nil_append]
    cases indexOfSub (h0 :: pt) rest <;> simp
  | cons c pre2 ih =>
    have hlw : leadsWith (h0 :: pt) (c :: (pre2 ++ rest)) = false := by
      simp only [leadsWith, Bool.and_eq_false_iff]
      left
      simp only [beq_eq_false_iff_ne]
      exact fun hc => hpre c (List.mem_cons_self c pre2) hc.symm
    rw [List.cons_append]
    simp only [indexOfSub, hlw, Bool.false_eq_true, if_false]
    rw [ih (fun c2 hc2 => hpre c2 (List.mem_cons_of_mem c hc2))]
    cases indexOfSub (h0 :: pt) rest with
    | none => rfl
    | some i =>
      simp only [Option.map_some', Option.some.injEq, List.length_cons]
      omega

theorem splitChar_append_line (r : List Char) :
    ∀ l : List Char, '\n' ∉ l →
      splitChar '\n' (l ++ '\n' :: r) = l :: splitChar '\n' r := by
  intro l
  induction l with
  | nil =>
    intro _
    rw [List.nil_append]
    simp [splitChar]
  | cons c l2 ih =>
    intro hl
    have hc : ¬ (c = '\n') := fun he => hl (he ▸ List.mem_cons_self c l2)
    rw [List.cons_append]
    simp only [splitChar, if_neg hc]
    rw [ih (fun hm => hl (List.mem_cons_of_mem c hm))]

theorem applyFMLine_id (fm : Frontmatter) (v : String) :
    applyFMLine fm ("id: ".data ++ v.data) = some { fm with id := v } := by
  unfold applyFMLine splitKeyVal
  have hidx : indexOfSub [':', ' '] ("id: ".data ++ v.data) = some 2 := by
    rw [show ("id: ".data ++ v.data) = ['i', 'd'] ++ ([':', ' '] ++ v.data) from rfl]
    rw [indexOfSub_append ':' [' '] ['i', 'd'] ([':', ' '] ++ v.data) (by decide)]
    rw [indexOfSub_self [':', ' '] v.data (by decide)]
    rfl
  rw [hidx]
  dsimp only
  rw [show ("id: ".data ++ v.data).take 2 = "id".data from rfl]
  rw [show ("id: ".data ++ v.data).drop (2 + 2) = v.data from rfl]
  rw [if_pos rfl]

theorem applyFMLine_title (fm : Frontmatter) (v : String) :
    applyFMLine fm ("title: ".data ++ v.data) = some { fm with title := v } := by
  unfold applyFMLine splitKeyVal
  have hidx : indexOfSub [':', ' '] ("title: ".data ++ v.data) = some 5 := by
    rw [show ("title: ".data ++ v.data) =
      ['t', 'i', 't', 'l', 'e'] ++ ([':', ' '] ++ v.data) from rfl]
    rw [indexOfSub_append ':' [' '] ['t', 'i', 't', 'l', 'e'] ([':', ' '] ++ v.data) (by decide)]
    rw [indexOfSub_self [':', ' '] v.data (by decide)]
    rfl
  rw [hidx]
  dsimp only
  rw [show ("title: ".data ++ v.data).take 5 = "title".data from rfl]
  rw [show ("title: ".data ++ v.data).drop (5 + 2) = v.data from rfl]
  rw [if_neg (by decide), if_pos rfl]

theorem applyFMLine_url (fm : Frontmatter) (v : String) :
    applyFMLine fm ("url: ".data ++ v.data) = some { fm with url := v } := by
  unfold applyFMLine splitKeyVal
  have hidx : indexOfSub [':', ' '] ("url: ".data ++ v.data) = some 3 := by
    rw [show ("url: ".data ++ v.data) = ['u', 'r', 'l'] ++ ([':', ' '] ++ v.data) from rfl]
    rw [indexOfSub_append ':' [' '] ['u', 'r', 'l'] ([':', ' '] ++ v.data) (by decide)]
    rw [indexOfSub_self [':', ' '] v.data (by decide)]
    rfl
  rw [hidx]
  dsimp only
  rw [show ("url: ".data ++ v.data).take 3 = "url".data from rfl]
  rw [show ("url: ".data ++ v.data).drop (3 + 2) = v.data from rfl]
  rw [if_neg (by decide), if_neg (by decide), if_pos rfl]

theorem unmarshalStep_ne (fm : Frontmatter) (l : List Char) (hne : ¬ (l = [])) :
    unmarshalStep (some fm) l = applyFMLine fm l := by
  unfold unmarshalStep
  dsimp only
  rw [if_neg hne]

theorem unmarshalStep_nil (fm : Frontmatter) :
    unmarshalStep (some fm) [] = some fm := rfl

theorem nl_notin_line (key v : String) (hkey : ¬ '\n' ∈ key.data)
    (hv : plainScalar v = true) : ¬ '\n' ∈ (key.data ++ v.data) := by
  intro hm
  rcases List.mem_append.mp hm with h | h
  · exact hkey h
  · exact (plain_all v hv '\n' h).2.1 rfl

theorem line_ne_nil (key v : String) (hk : key.data ≠ []) : key.data ++ v.data ≠ [] := by
  intro hc
  rcases List.append_eq_nil.mp hc with ⟨h1, _⟩
  exact hk h1

theorem plain_ne_empty (s : String) (h : plainScalar s = true) : s ≠ "" := by
  unfold plainScalar at h
  simp only [Bool.and_eq_true, Bool.not_eq_true'] at h
  intro he
  rw [he] at h
  exact absurd h.1.1.1 (by decide)

/-- Decoding inverts encoding on plain scalar metadata. -/
theorem unmarshal_marshal (fm : Frontmatter)
    (hid : fm.id = "" ∨ plainScalar fm.id = true)
    (ht : plainScalar fm.title = true)
    (hurl : fm.url = "" ∨ plainScalar fm.url = true) :
    unmarshalFM (marshalFM fm) = some fm := by
  have htl : ¬ '\n' ∈ ("title: ".data ++ fm.title.data) :=
    nl_notin_line "title: " fm.title (by decide) ht
  have htn : "title: ".data ++ fm.title.data ≠ [] := line_ne_nil "title: " fm.title (by decide)
  unfold unmarshalFM marshalFM
  rcases hid with hid | hid <;> rcases hurl with hurl | hurl
  · rw [if_pos hid, if_pos hurl]
    rw [show (("" : String) ++ ("title: " ++ fm.title ++ "\n") ++ ("" : String)).data =
        ("title: ".data ++ fm.title.data) ++ '\n' :: [] by
      simp [String.data_append]]
    rw [splitChar_append_line [] _ htl]
    rw [show splitChar '\n' [] = [[]] from rfl]
    rw [List.foldl_cons, unmarshalStep_ne _ _ htn, applyFMLine_title _ fm.title,
      List.foldl_cons, unmarshalStep_nil, List.foldl_nil]
    rw [show fm = { id := fm.id, title := fm.title, url := fm.url } from rfl, hid, hurl]
  · rw [if_pos hid, if_neg (plain_ne_empty _ hurl)]
    have hul : ¬ '\n' ∈ ("url: ".data ++ fm.url.data) :=
      nl_notin_line "url: " fm.url (by decide) hurl
    have hun : "url: ".data ++ fm.url.data ≠ [] := line_ne_nil "url: " fm.url (by decide)
    rw [show (("" : String) ++ ("title: " ++ fm.title ++ "\n") ++
          ("url: " ++ fm.url ++ "\n")).data =
        ("title: ".data ++ fm.title.data) ++ '\n' ::
          (("url: ".data ++ fm.url.data) ++ '\n' :: []) by
      simp [String.data_append]]
    rw [splitChar_append_line _ _ htl, splitChar_append_line [] _ hul]
    rw [show splitChar '\n' [] = [[]] from rfl]
    rw [List.foldl_cons, unmarshalStep_ne _ _ htn, applyFMLine_title _ fm.title,
      List.foldl_cons, unmarshalStep_ne _ _ hun, applyFMLine_url _ fm.url,
      List.foldl_cons, unmarshalStep_nil, List.foldl_nil]
    rw [show fm = { id := fm.id, title := fm.title, url := fm.url } from rfl, hid]
  · rw [if_neg (plain_ne_empty _ hid), if_pos hurl]
    have hil : ¬ '\n' ∈ ("id: ".data ++ fm.id.data) :=
      nl_notin_line "id: " fm.id (by decide) hid
    have hin : "id: ".data ++ fm.id.data ≠ [] := line_ne_nil "id: " fm.id (by decide)
    rw [show (("id: " ++ fm.id ++ "\n") ++ ("title: " ++ fm.title ++ "\n") ++
          ("" : String)).data =
        ("id: ".data ++ fm.id.data) ++ '\n' ::
          (("title: ".data ++ fm.title.data) ++ '\n' :: []) by
      simp [String.data_append]]
    rw [splitChar_append_line _ _ hil, splitChar_append_line [] _ htl]
    rw [show splitChar '\n' [] = [[]] from rfl]
    rw [List.foldl_cons, unmarshalStep_ne _ _ hin, applyFMLine_id _ fm.id,
      List.foldl_cons, unmarshalStep_ne _ _ htn, applyFMLine_title _ fm.title,
      List.foldl_cons, unmarshalStep_nil, List.foldl_nil]
    rw [show fm = { id := fm.id, title := fm.title, url := fm.url } from rfl, hurl]
  · rw [if_neg (plain_ne_empty _ hid), if_neg (plain_ne_empty _ hurl)]
    have hil : ¬ '\n' ∈ ("id: ".data ++ fm.id.data) :=
      nl_notin_line "id: " fm.id (by decide) hid
    have hin : "id: ".data ++ fm.id.data ≠ [] := line_ne_nil "id: " fm.id (by decide)
    have hul : ¬ '\n' ∈ ("url: ".data ++ fm.url.data) :=
      nl_notin_line "url: " fm.url (by decide) hurl
    have hun : "url: ".data ++ fm.url.data ≠ [] := line_ne_nil "url: " fm.url (by decide)
    rw [show (("id: " ++ fm.id ++ "\n") ++ ("title: " ++ fm.title ++ "\n") ++
          ("url: " ++ fm.url ++ "\n")).data =
        ("id: ".data ++ fm.id.data) ++ '\n' ::
          (("title: ".data ++ fm.title.data) ++ '\n' ::
            (("url: ".data ++ fm.url.data) ++ '\n' :: [])) by
      simp [String.data_append]]
    rw [splitChar_append_line _ _ hil, splitChar_append_line _ _ htl,
      splitChar_append_line [] _ hul]
    rw [show splitChar '\n' [] = [[]] from rfl]
    rw [List.foldl_cons, unmarshalStep_ne _ _ hin, applyFMLine_id _ fm.id,
      List.foldl_cons, unmarshalStep_ne _ _ htn, applyFMLine_title _ fm.title,
      List.foldl_cons, unmarshalStep_ne _ _ hun, applyFMLine_url _ fm.url,
      List.foldl_cons, unmarshalStep_nil, List.foldl_nil]

theorem no_dash_str (v : String) (hv : plainScalar v = true) : ∀ c ∈ v.data, c ≠ '-' :=
  fun c hc => (plain_all v hv c hc).1

theorem no_dash_append (l1 l2 : List Char) (h1 : ∀ c ∈ l1, c ≠ '-')
    (h2 : ∀ c ∈ l2, c ≠ '-') : ∀ c ∈ l1 ++ l2, c ≠ '-' := by
  intro c hc
  rcases List.mem_append.mp hc with h | h
  · exact h1 c h
  · exact h2 c h

theorem no_dash_line (key v : String) (hk : ∀ c ∈ key.data, c ≠ '-')
    (hv : plainScalar v = true) : ∀ c ∈ (key ++ v ++ "\n").data, c ≠ '-' := by
  rw [String.data_append, String.data_append]
  exact no_dash_append _ _ (no_dash_append _ _ hk (no_dash_str v hv)) (by decide)

theorem marshal_no_dash (fm : Frontmatter)
    (hid : fm.id = "" ∨ plainScalar fm.id = true)
    (ht : plainScalar fm.title = true)
    (hurl : fm.url = "" ∨ plainScalar fm.url = true) :
    ∀ c ∈ (marshalFM fm).data, c ≠ '-' := by
  unfold marshalFM
  have hline2 : ∀ c ∈ ("title: " ++ fm.title ++ "\n").data, c ≠ '-' :=
    no_dash_line "title: " fm.title (by decide) ht
  rcases hid with hid | hid <;> rcases hurl with hurl | hurl
  · rw [if_pos hid, if_pos hurl, String.data_append, String.data_append]
    exact no_dash_append _ _ (no_dash_append _ _ (by decide) hline2) (by decide)
  · rw [if_pos hid, if_neg (plain_ne_empty _ hurl), String.data_append, String.data_append]
    exact no_dash_append _ _ (no_dash_append _ _ (by decide) hline2)
      (no_dash_line "url: " fm.url (by decide) hurl)
  · rw [if_neg (plain_ne_empty _ hid), if_pos hurl, String.data_append, String.data_append]
    exact no_dash_append _ _
      (no_dash_append _ _ (no_dash_line "id: " fm.id (by decide) hid) hline2) (by decide)
  · rw [if_neg (plain_ne_empty _ hid), if_neg (plain_ne_empty _ hurl),
      String.data_append, String.data_append]
    exact no_dash_append _ _
      (no_dash_append _ _ (no_dash_line "id: " fm.id (by decide) hid) hline2)
      (no_dash_line "url: " fm.url (by decide) hurl)

/-- C9 amended: encoding then decoding returns the original identifier, title
and body — and the url — provided the present metadata values are plain
one-line scalars (nonempty strings of alphanumerics, space, underscore, dot
or slash without leading or trailing space); an absent identifier or url is
omitted and restored as empty safely. Without the restriction the round-trip
can fail (see the counterexample). -/
theorem c9_roundtrip_amended (fm : Frontmatter) (body : String)
    (hid : fm.id = "" ∨ plainScalar fm.id = true)
    (ht : plainScalar fm.title = true)
    (hurl : fm.url = "" ∨ plainScalar fm.url = true) :
    parseMarkdown (writeMarkdown fm body) = some { fm := fm, content := body } := by
  have hnd : ∀ c ∈ (marshalFM fm).data, c ≠ '-' := marshal_no_dash fm hid ht hurl
  unfold writeMarkdown parseMarkdown
  rw [show ("---\n" ++ marshalFM fm ++ "---\n" ++ body).data =
      fmDelim ++ ((marshalFM fm).data ++ (fmDelim ++ body.data)) by
    simp [String.data_append, fmDelim]]
  dsimp only
  rw [indexOfSub_self fmDelim _ (by decide)]
  dsimp only
  rw [List.drop_left' (show fmDelim.length = 0 + 4 from rfl)]
  rw [show (fmDelim : List Char) = '-' :: ['-', '-', '\n'] from rfl]
  rw [indexOfSub_append '-' ['-', '-', '\n'] (marshalFM fm).data
    (('-' :: ['-', '-', '\n']) ++ body.data) hnd]
  rw [indexOfSub_self ('-' :: ['-', '-', '\n']) body.data (by decide)]
  rw [show (Option.map (· + (marshalFM fm).data.length) (some 0)) =
    some ((marshalFM fm).data.length) by simp]
  dsimp only
  rw [List.take_left' (show (marshalFM fm).data.length = (marshalFM fm).data.length from rfl)]
  rw [show String.mk (marshalFM fm).data = marshalFM fm from rfl]
  rw [unmarshal_marshal fm hid ht hurl]
  dsimp only
  cases hbd : body.data with
  | nil =>
    have hbody : body = "" := by
      rw [show ("" : String) = String.mk ([] : List Char) from rfl, ← hbd]
    rw [if_neg (by
      simp only [List.length_append, List.length_cons, List.length_nil, hbd]
      omega)]
    rw [hbody]
  | cons c cs2 =>
    rw [if_pos (by
      simp only [List.length_append, List.length_cons, List.length_nil, hbd]
      omega)]
    rw [← hbd]
    rw [show (['-', '-', '-', '\n'] : List Char) ++
        ((marshalFM fm).data ++ (['-', '-', '-', '\n'] ++ body.data)) =
      ((['-', '-', '-', '\n'] ++ (marshalFM fm).data ++ ['-', '-', '-', '\n']) ++
        body.data) by simp [List.append_assoc]]
    rw [List.drop_left' (show ((['-', '-', '-', '\n'] : List Char) ++ (marshalFM fm).data ++
        ['-', '-', '-', '\n']).length = 0 + 4 + (marshalFM fm).data.length + 4 by
      simp [List.length_append]
      try omega)]

/-- C9 counterexample: for title `x---` (a value yaml.v3 emits as the plain
scalar line `title: x---`), the encoded document's closing-delimiter scan
stops at the title's trailing dashes followed by the line's newline, which
form `---\n` inside the frontmatter, so decoding returns title `x` and body
`---\nb` instead of the original title `x---` and body `b`: the round-trip
claim fails as stated. -/
theorem c9_roundtrip_counterexample :
    writeMarkdown { id := "i1", title := "x---", url := "" } "b" =
      "---\nid: i1\ntitle: x---\n---\nb" ∧
    parseMarkdown (writeMarkdown { id := "i1", title := "x---", url := "" } "b") =
      some { fm := { id := "i1", title := "x", url := "" }, content := "---\nb" } ∧
    parseMarkdown (writeMarkdown { id := "i1", title := "x---", url := "" } "b") ≠
      some { fm := { id := "i1", title := "x---", url := "" }, content := "b" } := by
  refine ⟨by decide, by decide, by decide⟩

/-- Witness for C9 amended on plain values. -/
theorem c9_roundtrip_witness :
    (("i1" : String) = "" ∨ plainScalar "i1" = true) ∧ plainScalar "Hello" = true ∧
    (("" : String) = "" ∨ plainScalar "" = true) ∧
    parseMarkdown (writeMarkdown { id := "i1", title := "Hello", url := "" } "body b") =
      some { fm := { id := "i1", title := "Hello", url := "" }, content := "body b" } := by
  refine ⟨Or.inr (by decide), by decide, Or.inl rfl, ?_⟩
  exact c9_roundtrip_amended { id := "i1", title := "Hello", url := "" } "body b"
    (Or.inr (by decide)) (by decide) (Or.inl rfl)

/-! ## Claim C1: the tree builder's forest -/

theorem iterUp_add (all : List Article) (k : Nat) (x : Article) :
    ∀ m, iterUp all (k + m) x = (iterUp all k x).bind (iterUp all m) := by
  intro m
  induction m with
  | zero =>
    rw [Nat.add_zero]
    cases iterUp all k x <;> rfl
  | succ m2 ih =>
    rw [show k + (m2 + 1) = (k + m2) + 1 from rfl]
    rw [show iterUp all ((k + m2) + 1) x = (iterUp all (k + m2) x).bind (pArt all) from rfl]
    rw [ih]
    cases iterUp all k x with
    | none => rfl
    | some y =>
      rw [Option.some_bind, Option.some_bind]
      rfl

theorem iterUp_some_of_le (all : List Article) (x : Article) (k m : Nat) (hm : m ≤ k)
    (y : Article) (hy : iterUp all k x = some y) : ∃ z, iterUp all m x = some z := by
  have hk : k = m + (k - m) := by omega
  rw [hk, iterUp_add] at hy
  cases hz : iterUp all m x with
  | none => rw [hz] at hy; exact absurd hy (by simp)
  | some z => exact ⟨z, rfl⟩

theorem pArt_root (all : List Article) (r : Article) (hr : isRootArticle r = true) :
    pArt all r = none := by
  unfold pArt
  unfold isRootArticle at hr
  cases hp : r.parentID with
  | none => rfl
  | some p =>
    rw [hp] at hr
    dsimp only at hr ⊢
    rw [if_pos (by simpa using hr)]

theorem pArt_mem (all : List Article) (x y : Article) (h : pArt all x = some y) : y ∈ all := by
  unfold pArt at h
  cases hp : x.parentID with
  | none => rw [hp] at h; exact absurd h (by simp)
  | some p =>
    rw [hp] at h
    dsimp only at h
    by_cases hpe : p = ""
    · rw [if_pos hpe] at h; exact absurd h (by simp)
    · rw [if_neg hpe] at h
      exact List.mem_of_find?_eq_some h

theorem pArt_parentID (all : List Article) (x y : Article) (h : pArt all x = some y) :
    x.parentID = some y.id ∧ y.id ≠ "" := by
  unfold pArt at h
  cases hp : x.parentID with
  | none => rw [hp] at h; exact absurd h (by simp)
  | some p =>
    rw [hp] at h
    dsimp only at h
    by_cases hpe : p = ""
    · rw [if_pos hpe] at h; exact absurd h (by simp)
    · rw [if_neg hpe] at h
      have hid : y.id = p := by simpa using List.find?_some h
      rw [hid]
      exact ⟨rfl, hpe⟩

theorem findById_nodup (all : List Article) (hnd : (all.map Article.id).Nodup)
    (y : Article) (hy : y ∈ all) : findById all y.id = some y := by
  induction all with
  | nil => simp at hy
  | cons z rest ih =>
    rw [List.map_cons, List.nodup_cons] at hnd
    cases List.mem_cons.mp hy with
    | inl he =>
      rw [he]
      unfold findById
      rw [List.find?_cons_of_pos _ (by simp)]
    | inr hm =>
      have hne : (z.id == y.id) = false := by
        simp only [beq_eq_false_iff_ne]
        intro hc
        exact hnd.1 (hc ▸ List.mem_map_of_mem Article.id hm)
      unfold findById
      rw [List.find?_cons_of_neg _ (by simp [hne])]
      exact ih hnd.2 hm

theorem pArt_of_child (all : List Article) (hnd : (all.map Article.id).Nodup)
    (x y : Article) (hy : y ∈ all) (hyid : y.id ≠ "") (hp : x.parentID = some y.id) :
    pArt all x = some y := by
  unfold pArt
  rw [hp]
  dsimp only
  rw [if_neg hyid]
  exact findById_nodup all hnd y hy

theorem iterUp_mem (all : List Article) (x : Article) (hx : x ∈ all) :
    ∀ (k : Nat) (y : Article), iterUp all k x = some y → y ∈ all := by
  intro k
  induction k with
  | zero => intro y hy; rw [← Option.some.inj hy]; exact hx
  | succ k2 ih =>
    intro y hy
    rw [show iterUp all (k2 + 1) x = (iterUp all k2 x).bind (pArt all) from rfl] at hy
    cases hz : iterUp all k2 x with
    | none => rw [hz] at hy; exact absurd hy (by simp)
    | some z =>
      rw [hz, Option.some_bind] at hy
      exact pArt_mem all z y hy

theorem filterMap_length_all_some {α β : Type} (f : α → Option β) (l : List α)
    (h : ∀ a ∈ l, ∃ b, f a = some b) : (l.filterMap f).length = l.length := by
  induction l with
  | nil => rfl
  | cons a rest ih =>
    rcases h a (List.mem_cons_self a rest) with ⟨b, hb⟩
    rw [List.filterMap_cons, hb]
    rw [List.length_cons, List.length_cons]
    rw [ih (fun a2 ha2 => h a2 (List.mem_cons_of_mem a ha2))]

theorem filterMap_nodup_inj {α β : Type} (f : α → Option β) (l : List α)
    (hnd : l.Nodup) (hsome : ∀ a ∈ l, ∃ b, f a = some b)
    (hinj : ∀ a ∈ l, ∀ a2 ∈ l, f a = f a2 → a = a2) : (l.filterMap f).Nodup := by
  induction l with
  | nil => simp
  | cons a rest ih =>
    rcases hsome a (List.mem_cons_self a rest) with ⟨b, hb⟩
    rw [List.filterMap_cons, hb]
    rw [List.nodup_cons] at hnd
    rw [List.nodup_cons]
    constructor
    · intro hbmem
      rcases List.mem_filterMap.mp hbmem with ⟨a2, ha2, hfa2⟩
      have : a = a2 := hinj a (List.mem_cons_self a rest) a2 (List.mem_cons_of_mem a ha2)
        (by rw [hb, hfa2])
      exact hnd.1 (this ▸ ha2)
    · exact ih hnd.2 (fun a2 ha2 => hsome a2 (List.mem_cons_of_mem a ha2))
        (fun a2 ha2 a3 ha3 hf => hinj a2 (List.mem_cons_of_mem a ha2) a3
          (List.mem_cons_of_mem a ha3) hf)

theorem nodup_subset_length {α : Type} [DecidableEq α] (l1 l2 : List α)
    (hnd : l1.Nodup) (hsub : ∀ a ∈ l1, a ∈ l2) : l1.length ≤ l2.length := by
  have h1 : l1.toFinset.card = l1.length := List.toFinset_card_of_nodup hnd
  have h2 : l1.toFinset ⊆ l2.toFinset := by
    intro a ha
    rw [List.mem_toFinset] at ha ⊢
    exact hsub a ha
  calc l1.length = l1.toFinset.card := h1.symm
    _ ≤ l2.toFinset.card := Finset.card_le_card h2
    _ ≤ l2.length := l2.toFinset_card_le

/-- A chain that ends at a root within `k` steps has `k + 1` pairwise
distinct articles, all drawn from the list, so `k + 1` is at most the list
length. -/
theorem chain_bound (all : List Article) (x : Article) (hx : x ∈ all) (k : Nat)
    (r : Article) (hk : iterUp all k x = some r) (hr : isRootArticle r = true) :
    k + 1 ≤ all.length := by
  have hnone : iterUp all (k + 1) x = none := by
    rw [show iterUp all (k + 1) x = (iterUp all k x).bind (pArt all) from rfl, hk,
      Option.some_bind]
    exact pArt_root all r hr
  have key : ∀ i j, i < j → j ≤ k → iterUp all i x = iterUp all j x → False := by
    intro i j hij hjk heq
    have hper : iterUp all (i + (k + 1 - j)) x = iterUp all (j + (k + 1 - j)) x := by
      rw [iterUp_add, iterUp_add, heq]
    rw [show j + (k + 1 - j) = k + 1 by omega] at hper
    rw [hnone] at hper
    rcases iterUp_some_of_le all x k (i + (k + 1 - j)) (by omega) r hk with ⟨z, hz⟩
    rw [hz] at hper
    exact absurd hper (by simp)
  have hlen : ((List.range (k + 1)).filterMap (fun m => iterUp all m x)).length = k + 1 := by
    rw [filterMap_length_all_some]
    · exact List.length_range (k + 1)
    · intro m hm
      exact iterUp_some_of_le all x k m (by
        have := List.mem_range.mp hm
        omega) r hk
  have hnd : ((List.range (k + 1)).filterMap (fun m => iterUp all m x)).Nodup := by
    refine filterMap_nodup_inj _ _ (List.nodup_range (k + 1)) ?_ ?_
    · intro m hm
      exact iterUp_some_of_le all x k m (by
        have := List.mem_range.mp hm
        omega) r hk
    · intro i hi j hj hf
      by_contra hne
      rcases Nat.lt_or_ge i j with h | h
      · exact key i j h (by have := List.mem_range.mp hj; omega) hf
      · have hlt : j < i := by omega
        exact key j i hlt (by have := List.mem_range.mp hi; omega) hf.symm
  have hsub : ∀ a ∈ (List.range (k + 1)).filterMap (fun m => iterUp all m x), a ∈ all := by
    intro a ha
    rcases List.mem_filterMap.mp ha with ⟨m, hm, hma⟩
    exact iterUp_mem all x hx m a hma
  have := nodup_subset_length _ all hnd hsub
  rw [hlen] at this
  exact this

theorem occ_cons (x a : Article) (l : List Article) :
    occ x (a :: l) = occ x l + (if a = x then 1 else 0) := by
  unfold occ
  rw [List.countP_cons]
  by_cases h : a = x
  · simp [h]
  · simp [h]

theorem occ_append (x : Article) (l1 l2 : List Article) :
    occ x (l1 ++ l2) = occ x l1 + occ x l2 := by
  unfold occ
  exact List.countP_append _ l1 l2

theorem occ_flatF_map {β : Type} (x : Article) (g : β → TNode) (l : List β) :
    occ x (flatF (l.map g)) = (l.map (fun c => occ x (flatN (g c)))).sum := by
  induction l with
  | nil => rfl
  | cons c rest ih =>
    rw [List.map_cons]
    rw [show flatF (g c :: rest.map g) = flatN (g c) ++ flatF (rest.map g) from rfl]
    rw [occ_append, ih, List.map_cons, List.sum_cons]

theorem mapSumAdd {α : Type} (l : List α) (f g : α → Nat) :
    (l.map (fun c => f c + g c)).sum = (l.map f).sum + (l.map g).sum := by
  induction l with
  | nil => rfl
  | cons c rest ih =>
    rw [List.map_cons, List.map_cons, List.map_cons, List.sum_cons, List.sum_cons,
      List.sum_cons, ih]
    omega

theorem countP_as_sum {α : Type} (l : List α) (p : α → Bool) :
    l.countP p = (l.map (fun c => if p c then 1 else 0)).sum := by
  induction l with
  | nil => rfl
  | cons c rest ih =>
    rw [List.countP_cons, List.map_cons, List.sum_cons, ih]
    omega

theorem sum_countP_comm {α β : Type} (L : List α) (R : List β) (p : α → β → Bool) :
    (L.map (fun c => R.countP (p c))).sum = (R.map (fun k => L.countP (fun c => p c k))).sum := by
  induction R with
  | nil =>
    rw [List.map_nil, List.sum_nil]
    rw [show L.map (fun c => List.countP (p c) []) = L.map (fun _ => 0) by
      refine List.map_congr_left ?_
      intro c hc
      rfl]
    induction L with
    | nil => rfl
    | cons c rest ih =>
      rw [List.map_cons, List.sum_cons, ih]
      omega
  | cons k R2 ih =>
    rw [List.map_cons, List.sum_cons]
    rw [show L.map (fun c => List.countP (p c) (k :: R2)) =
      L.map (fun c => List.countP (p c) R2 + if p c k then 1 else 0) by
      refine List.map_congr_left ?_
      intro c hc
      rw [List.countP_cons]]
    rw [mapSumAdd, ih]
    rw [← countP_as_sum]
    omega

theorem sum_map_zero {α : Type} (l : List α) (f : α → Nat) (h : ∀ c ∈ l, f c = 0) :
    (l.map f).sum = 0 := by
  induction l with
  | nil => rfl
  | cons c rest ih =>
    rw [List.map_cons, List.sum_cons, h c (List.mem_cons_self c rest),
      ih (fun c2 hc2 => h c2 (List.mem_cons_of_mem c hc2))]

theorem sum_map_single {α : Type} (l : List α) (f : α → Nat) (y : α) (hnd : l.Nodup)
    (hy : y ∈ l) (hfy : f y = 1) (hz : ∀ c ∈ l, c ≠ y → f c = 0) : (l.map f).sum = 1 := by
  induction l with
  | nil => simp at hy
  | cons c rest ih =>
    rw [List.nodup_cons] at hnd
    rw [List.map_cons, List.sum_cons]
    cases List.mem_cons.mp hy with
    | inl he =>
      rw [he] at hfy
      rw [hfy]
      have hrest : ∀ c2 ∈ rest, f c2 = 0 := by
        intro c2 hc2
        refine hz c2 (List.mem_cons_of_mem c hc2) ?_
        intro hcy
        rw [hcy, he] at hc2
        exact hnd.1 hc2
      rw [sum_map_zero rest f hrest]
    | inr hm =>
      rw [hz c (List.mem_cons_self c rest) (fun hcy => hnd.1 (hcy ▸ hm))]
      rw [ih hnd.2 hm (fun c2 hc2 hc2y => hz c2 (List.mem_cons_of_mem c hc2) hc2y)]

theorem countP_not_mem_zero {α : Type} [DecidableEq α] (l : List α) (y : α) (hy : ¬ y ∈ l) :
    l.countP (fun c => decide (y = c)) = 0 := by
  rw [List.countP_eq_zero]
  intro c hc hdec
  exact hy ((of_decide_eq_true hdec) ▸ hc)

theorem countP_mem_indicator {α : Type} [DecidableEq α] (l : List α) (y : α) (hnd : l.Nodup) :
    l.countP (fun c => decide (y = c)) = if y ∈ l then 1 else 0 := by
  induction l with
  | nil => rfl
  | cons c rest ih =>
    rw [List.nodup_cons] at hnd
    rw [List.countP_cons]
    by_cases hyc : y = c
    · rw [if_pos (by exact decide_eq_true hyc)]
      rw [← hyc] at hnd
      rw [countP_not_mem_zero rest y hnd.1]
      rw [if_pos (by rw [hyc]; exact List.mem_cons_self c rest)]
    · rw [if_neg (by simp [hyc])]
      rw [ih hnd.2]
      by_cases hym : y ∈ rest
      · rw [if_pos hym, if_pos (List.mem_cons_of_mem c hym)]
      · rw [if_neg hym, if_neg (by
          intro hc
          rcases List.mem_cons.mp hc with h | h
          · exact hyc h
          · exact hym h)]

theorem countP_le_one_unique {α : Type} (l : List α) (p : α → Bool)
    (huniq : ∀ i ∈ l, ∀ j ∈ l, p i = true → p j = true → i = j) (hnd : l.Nodup) :
    l.countP p ≤ 1 := by
  induction l with
  | nil => simp
  | cons c rest ih =>
    rw [List.nodup_cons] at hnd
    rw [List.countP_cons]
    by_cases hc : p c = true
    · rw [if_pos hc]
      have hzero : rest.countP p = 0 := by
        rw [List.countP_eq_zero]
        intro c2 hc2 hpc2
        have := huniq c2 (List.mem_cons_of_mem c hc2) c (List.mem_cons_self c rest) hpc2 hc
        exact hnd.1 (this ▸ hc2)
      omega
    · rw [if_neg hc]
      have := ih (fun i hi j hj hpi hpj => huniq i (List.mem_cons_of_mem c hi) j
        (List.mem_cons_of_mem c hj) hpi hpj) hnd.2
      omega

theorem children_mem_iff (all : List Article) (i : String) (c : Article) :
    c ∈ childrenArticles all i ↔ (c ∈ all ∧ c.parentID = some i) := by
  unfold childrenArticles
  rw [List.mem_filter]
  constructor
  · rintro ⟨hm, hp⟩
    refine ⟨hm, ?_⟩
    cases hpc : c.parentID with
    | none => rw [hpc] at hp; simp at hp
    | some p =>
      rw [hpc] at hp
      dsimp only at hp
      rw [show p = i from by simpa using hp]
  · rintro ⟨hm, hp⟩
    refine ⟨hm, ?_⟩
    rw [hp]
    simp

theorem children_nodup (all : List Article) (hnd : (all.map Article.id).Nodup) (i : String) :
    (childrenArticles all i).Nodup :=
  (List.Nodup.of_map Article.id hnd).filter _

/-- One step of the counting argument: among the children of `a`, exactly the
article the chain of `x` sits at after `k` steps contributes — and it does
exactly when the chain reaches `a` at step `k + 1`. -/
theorem children_countP_step (all : List Article) (hnd : (all.map Article.id).Nodup)
    (hne : ∀ b ∈ all, b.id ≠ "") (x : Article) (hx : x ∈ all) (a : Article) (ha : a ∈ all)
    (k : Nat) :
    (childrenArticles all a.id).countP (fun c => decide (iterUp all k x = some c)) =
      if iterUp all (k + 1) x = some a then 1 else 0 := by
  have hstep : iterUp all (k + 1) x = (iterUp all k x).bind (pArt all) := rfl
  cases hc0 : iterUp all k x with
  | none =>
    rw [hstep, hc0]
    rw [show (none : Option Article).bind (pArt all) = none from rfl]
    rw [if_neg (by simp)]
    rw [List.countP_eq_zero]
    intro c hc hdec
    simp at hdec
  | some c0 =>
    have hc0mem : c0 ∈ all := iterUp_mem all x hx k c0 hc0
    rw [hstep, hc0, Option.some_bind]
    rw [List.countP_congr (q := fun c => decide (c0 = c)) (by
      intro c hc
      simp)]
    rw [countP_mem_indicator _ c0 (children_nodup all hnd a.id)]
    have hiff : c0 ∈ childrenArticles all a.id ↔ pArt all c0 = some a := by
      rw [children_mem_iff]
      constructor
      · rintro ⟨-, hp⟩
        exact pArt_of_child all hnd c0 a ha (hne a ha) hp
      · intro hp
        exact ⟨hc0mem, (pArt_parentID all c0 a hp).1⟩
    by_cases hcase : pArt all c0 = some a
    · rw [if_pos (hiff.mpr hcase), if_pos hcase]
    · rw [if_neg (fun hm => hcase (hiff.mp hm)), if_neg hcase]

theorem ite_prop_bool (P : Prop) [Decidable P] :
    (if P then 1 else 0) = if decide P = true then 1 else 0 := by
  by_cases h : P <;> simp [h]

/-- The central counting lemma: an article occurs in the tree built from `a`
once for every step count at which its parent chain sits at `a` (at most one
such count exists when the chain ends, but that is not needed here). -/
theorem buildTree_count (all : List Article) (hnd : (all.map Article.id).Nodup)
    (hne : ∀ b ∈ all, b.id ≠ "") (x : Article) (hx : x ∈ all) :
    ∀ (f : Nat) (a : Article), a ∈ all →
      occ x (flatN (buildTreeNode all f a)) =
        (List.range (f + 1)).countP (fun k => decide (iterUp all k x = some a)) := by
  intro f
  induction f with
  | zero =>
    intro a ha
    rw [show flatN (buildTreeNode all 0 a) = [a] from rfl]
    rw [show List.range (0 + 1) = [0] from rfl]
    rw [occ_cons]
    rw [show occ x ([] : List Article) = 0 from rfl]
    rw [List.countP_cons]
    rw [show List.countP (fun k => decide (iterUp all k x = some a)) [] = 0 from rfl]
    rw [show iterUp all 0 x = some x from rfl]
    by_cases hax : a = x
    · subst hax
      simp
    · rw [if_neg hax, if_neg (by
        simp only [Option.some.injEq, decide_eq_true_eq]
        exact fun h => hax h.symm)]
  | succ f2 ih =>
    intro a ha
    rw [show flatN (buildTreeNode all (f2 + 1) a) =
      a :: flatF ((goChildren all a.id).map (fun c => buildTreeNode all f2 c)) from rfl]
    rw [occ_cons, occ_flatF_map]
    rw [((goChildren_perm all a.id).map
      (fun c => occ x (flatN (buildTreeNode all f2 c)))).sum_eq]
    rw [List.map_congr_left (fun c hc =>
      ih c ((children_mem_iff all a.id c).mp hc).1)]
    rw [sum_countP_comm (childrenArticles all a.id) (List.range (f2 + 1))
      (fun c k => decide (iterUp all k x = some c))]
    rw [List.map_congr_left (fun k hk => children_countP_step all hnd hne x hx a ha k)]
    rw [List.map_congr_left (fun k hk => ite_prop_bool (iterUp all (k + 1) x = some a))]
    rw [← countP_as_sum (List.range (f2 + 1)) (fun k => decide (iterUp all (k + 1) x = some a))]
    rw [List.range_succ_eq_map (f2 + 1)]
    rw [List.countP_cons, List.countP_map]
    rw [show iterUp all 0 x = some x from rfl]
    have hcomp : List.countP ((fun k => decide (iterUp all k x = some a)) ∘ Nat.succ)
        (List.range (f2 + 1)) =
        List.countP (fun k => decide (iterUp all (k + 1) x = some a)) (List.range (f2 + 1)) := by
      refine List.countP_congr ?_
      intro k hk
      rfl
    rw [hcomp]
    by_cases hax : a = x
    · subst hax
      simp
    · rw [if_neg hax, if_neg (by
        simp only [Option.some.injEq, decide_eq_true_eq]
        exact fun h => hax h.symm)]

theorem iterUp_none_of_le (all : List Article) (x : Article) (m k : Nat) (hmk : m ≤ k)
    (hm : iterUp all m x = none) : iterUp all k x = none := by
  have hk : k = m + (k - m) := by omega
  rw [hk, iterUp_add, hm]
  rfl

theorem root_hit_unique (all : List Article) (x : Article) (k1 k2 : Nat) (r1 r2 : Article)
    (h1 : iterUp all k1 x = some r1) (hr1 : isRootArticle r1 = true)
    (h2 : iterUp all k2 x = some r2) (hr2 : isRootArticle r2 = true) :
    k1 = k2 ∧ r1 = r2 := by
  rcases Nat.lt_trichotomy k1 k2 with h | h | h
  · exfalso
    have hstep : iterUp all (k1 + 1) x = none := by
      rw [show iterUp all (k1 + 1) x = (iterUp all k1 x).bind (pArt all) from rfl, h1,
        Option.some_bind]
      exact pArt_root all r1 hr1
    have := iterUp_none_of_le all x (k1 + 1) k2 (by omega) hstep
    rw [this] at h2
    exact absurd h2 (by simp)
  · subst h
    rw [h1] at h2
    exact ⟨rfl, Option.some.inj h2⟩
  · exfalso
    have hstep : iterUp all (k2 + 1) x = none := by
      rw [show iterUp all (k2 + 1) x = (iterUp all k2 x).bind (pArt all) from rfl, h2,
        Option.some_bind]
      exact pArt_root all r2 hr2
    have := iterUp_none_of_le all x (k2 + 1) k1 (by omega) hstep
    rw [this] at h1
    exact absurd h1 (by simp)

theorem reaches_iff (all : List Article) (x : Article) :
    reaches all x = true ↔
      ∃ k, k < all.length + 1 ∧ ∃ r, iterUp all k x = some r ∧ isRootArticle r = true := by
  unfold reaches
  rw [List.any_eq_true]
  constructor
  · rintro ⟨k, hk, hmatch⟩
    refine ⟨k, List.mem_range.mp hk, ?_⟩
    cases hy : iterUp all k x with
    | none => rw [hy] at hmatch; simp at hmatch
    | some r =>
      rw [hy] at hmatch
      exact ⟨r, rfl, by simpa using hmatch⟩
  · rintro ⟨k, hk, r, hr, hroot⟩
    refine ⟨k, List.mem_range.mpr hk, ?_⟩
    rw [hr]
    simpa using hroot

/-- The forest of the diff tree builder contains an article of the list once
when its parent chain reaches a root, and not at all otherwise. -/
theorem forest_count (all : List Article) (hnd : (all.map Article.id).Nodup)
    (hne : ∀ b ∈ all, b.id ≠ "") (x : Article) (hx : x ∈ all) :
    occ x (flatF (buildServerForest all)) = if reaches all x = true then 1 else 0 := by
  unfold buildServerForest sortByOrder
  rw [occ_flatF_map]
  rw [((List.perm_insertionSort (fun a b => a.order ≤ b.order) (all.filter isRootArticle)).map
    (fun r => occ x (flatN (buildTreeNode all all.length r)))).sum_eq]
  rw [List.map_congr_left (fun r hr =>
    buildTree_count all hnd hne x hx all.length r (List.mem_of_mem_filter hr))]
  by_cases hreach : reaches all x = true
  · rw [if_pos hreach]
    rcases (reaches_iff all x).mp hreach with ⟨k0, hk0, r0, hr0, hroot0⟩
    have hr0all : r0 ∈ all := iterUp_mem all x hx k0 r0 hr0
    refine sum_map_single _ _ r0 ?_ ?_ ?_ ?_
    · exact (List.Nodup.of_map Article.id hnd).filter _
    · exact List.mem_filter.mpr ⟨hr0all, hroot0⟩
    · have hle : (List.range (all.length + 1)).countP
          (fun k => decide (iterUp all k x = some r0)) ≤ 1 := by
        refine countP_le_one_unique _ _ ?_ (List.nodup_range _)
        intro i hi j hj hpi hpj
        exact (root_hit_unique all x i j r0 r0 (of_decide_eq_true hpi) hroot0
          (of_decide_eq_true hpj) hroot0).1
      have hge : 0 < (List.range (all.length + 1)).countP
          (fun k => decide (iterUp all k x = some r0)) := by
        refine List.countP_pos_iff.mpr ⟨k0, List.mem_range.mpr hk0, ?_⟩
        exact decide_eq_true hr0
      omega
    · intro r hrf hrne
      rw [List.countP_eq_zero]
      intro k hk hdec
      have hkr := of_decide_eq_true hdec
      have hroot := (List.mem_filter.mp hrf).2
      exact hrne (root_hit_unique all x k k0 r r0 hkr hroot hr0 hroot0).2
  · rw [if_neg hreach]
    refine sum_map_zero _ _ ?_
    intro r hrf
    rw [List.countP_eq_zero]
    intro k hk hdec
    exact hreach ((reaches_iff all x).mpr ⟨k, List.mem_range.mp hk, r,
      of_decide_eq_true hdec, (List.mem_filter.mp hrf).2⟩)

mutual

theorem flatN_nodes : ∀ t : TNode, flatN t = (nodesN t).map TNode.art
  | .mk a cs => by
    rw [show flatN (.mk a cs) = a :: flatF cs from rfl,
      show nodesN (.mk a cs) = .mk a cs :: nodesF cs from rfl,
      List.map_cons, flatF_nodes cs]
    rfl

theorem flatF_nodes : ∀ ns : List TNode, flatF ns = (nodesF ns).map TNode.art
  | [] => rfl
  | t :: ts => by
    rw [show flatF (t :: ts) = flatN t ++ flatF ts from rfl,
      show nodesF (t :: ts) = nodesN t ++ nodesF ts from rfl,
      List.map_append, flatN_nodes t, flatF_nodes ts]

end

mutual

theorem mem_nodesN_cases : ∀ (t m2 : TNode), m2 ∈ nodesN t →
    m2 = t ∨ ∃ m ∈ nodesN t, m2 ∈ m.subs
  | .mk a cs, m2 => fun hm => by
    rw [show nodesN (.mk a cs) = .mk a cs :: nodesF cs from rfl] at hm
    cases List.mem_cons.mp hm with
    | inl he => exact Or.inl he
    | inr hm2 =>
      rcases mem_nodesF_cases cs m2 hm2 with h | ⟨m, hmn, hsub⟩
      · right
        refine ⟨.mk a cs, ?_, h⟩
        rw [show nodesN (.mk a cs) = .mk a cs :: nodesF cs from rfl]
        exact List.mem_cons_self _ _
      · right
        refine ⟨m, ?_, hsub⟩
        rw [show nodesN (.mk a cs) = .mk a cs :: nodesF cs from rfl]
        exact List.mem_cons_of_mem _ hmn

theorem mem_nodesF_cases : ∀ (ns : List TNode) (m2 : TNode), m2 ∈ nodesF ns →
    m2 ∈ ns ∨ ∃ m ∈ nodesF ns, m2 ∈ m.subs
  | [], m2 => fun hm => by
    rw [show nodesF ([] : List TNode) = [] from rfl] at hm
    exact absurd hm (by simp)
  | t :: ts, m2 => fun hm => by
    rw [show nodesF (t :: ts) = nodesN t ++ nodesF ts from rfl] at hm
    rcases List.mem_append.mp hm with h | h
    · rcases mem_nodesN_cases t m2 h with he | ⟨m, hmn, hsub⟩
      · exact Or.inl (he ▸ List.mem_cons_self t ts)
      · right
        refine ⟨m, ?_, hsub⟩
        rw [show nodesF (t :: ts) = nodesN t ++ nodesF ts from rfl]
        exact List.mem_append_left _ hmn
    · rcases mem_nodesF_cases ts m2 h with h2 | ⟨m, hmn, hsub⟩
      · exact Or.inl (List.mem_cons_of_mem t h2)
      · right
        refine ⟨m, ?_, hsub⟩
        rw [show nodesF (t :: ts) = nodesN t ++ nodesF ts from rfl]
        exact List.mem_append_right _ hmn

end

theorem build_arts_mem (all : List Article) :
    ∀ (f : Nat) (a : Article), a ∈ all →
      ∀ t ∈ nodesN (buildTreeNode all f a), t.art ∈ all := by
  intro f
  induction f with
  | zero =>
    intro a ha t ht
    rw [show buildTreeNode all 0 a = TNode.mk a [] from rfl] at ht
    rw [show nodesN (TNode.mk a []) = [TNode.mk a []] from rfl] at ht
    rw [List.mem_singleton.mp ht]
    exact ha
  | succ f2 ih =>
    intro a ha t ht
    rw [show buildTreeNode all (f2+1) a =
      TNode.mk a ((goChildren all a.id).map (fun c => buildTreeNode all f2 c)) from rfl] at ht
    rw [show nodesN (TNode.mk a ((goChildren all a.id).map (fun c => buildTreeNode all f2 c))) =
      TNode.mk a ((goChildren all a.id).map (fun c => buildTreeNode all f2 c)) ::
        nodesF ((goChildren all a.id).map (fun c => buildTreeNode all f2 c)) from rfl] at ht
    cases List.mem_cons.mp ht with
    | inl he =>
      rw [he]
      exact ha
    | inr hm =>
      rcases (mem_nodesF _ t).mp hm with ⟨n, hn, htn⟩
      rcases List.mem_map.mp hn with ⟨c, hc, hbc⟩
      have hcall : c ∈ all :=
        ((children_mem_iff all a.id c).mp ((goChildren_perm all a.id).mem_iff.mp hc)).1
      rw [← hbc] at htn
      exact ih c hcall t htn

theorem forest_top (all : List Article) (t : TNode) (ht : t ∈ buildServerForest all) :
    isRootArticle t.art = true ∧ t.art ∈ all ∧ ∃ f2, t = buildTreeNode all f2 t.art := by
  unfold buildServerForest at ht
  rcases List.mem_map.mp ht with ⟨r, hr, hbr⟩
  have hrf : r ∈ all.filter isRootArticle := by
    unfold sortByOrder at hr
    exact (List.perm_insertionSort _ _).mem_iff.mp hr
  have hart : t.art = r := by rw [← hbr, art_buildTreeNode]
  refine ⟨?_, ?_, all.length, ?_⟩
  · rw [hart]
    exact List.of_mem_filter hrf
  · rw [hart]
    exact List.mem_of_mem_filter hrf
  · rw [← hbr, art_buildTreeNode]

theorem nodes_of_forest (all : List Article) (m : TNode)
    (hm : m ∈ nodesF (buildServerForest all)) :
    (∃ f2, m = buildTreeNode all f2 m.art) ∧ m.art ∈ all := by
  rcases (mem_nodesF _ m).mp hm with ⟨n, hn, hmn⟩
  rcases forest_top all n hn with ⟨-, hnall, f2, hbuild⟩
  rw [hbuild] at hmn
  exact ⟨nodes_of_build all f2 n.art m hmn, build_arts_mem all f2 n.art hnall m hmn⟩

theorem occ_pos_iff (x : Article) (l : List Article) : 0 < occ x l ↔ x ∈ l := by
  unfold occ
  rw [List.countP_pos_iff]
  constructor
  · rintro ⟨y, hy, hyx⟩
    rw [← show y = x by simpa using hyx]
    exact hy
  · intro hx
    exact ⟨x, hx, by simp⟩

/-- Edges of the built forest are exactly the resolved parent references
whose parent is reachable. -/
theorem hasEdge_iff (all : List Article) (hnd : (all.map Article.id).Nodup)
    (hne : ∀ b ∈ all, b.id ≠ "") (x : Article) (hx : x ∈ all) (c : Article) (hc : c ∈ all) :
    hasEdge (buildServerForest all) x c = true ↔
      (c.parentID = some x.id ∧ reaches all x = true) := by
  unfold hasEdge
  rw [List.any_eq_true]
  constructor
  · rintro ⟨m, hm, hpred⟩
    rw [Bool.and_eq_true] at hpred
    have hmx : m.art = x := by simpa using hpred.1
    rcases List.any_eq_true.mp hpred.2 with ⟨n2, hn2, hn2c⟩
    have hn2art : n2.art = c := by simpa using hn2c
    rcases nodes_of_forest all m hm with ⟨⟨f2, hbuild⟩, hmall⟩
    constructor
    · cases f2 with
      | zero =>
        rw [hbuild] at hn2
        rw [show (buildTreeNode all 0 m.art).subs = [] from rfl] at hn2
        exact absurd hn2 (by simp)
      | succ f3 =>
        rw [hbuild] at hn2
        rw [show (buildTreeNode all (f3+1) m.art).subs =
          (goChildren all m.art.id).map (fun c2 => buildTreeNode all f3 c2) from rfl] at hn2
        rcases List.mem_map.mp hn2 with ⟨c2, hc2, hbc2⟩
        have ha2 : n2.art = c2 := by rw [← hbc2, art_buildTreeNode]
        have hc2c : c2 = c := by rw [← ha2, hn2art]
        have hmem := (children_mem_iff all m.art.id c2).mp
          ((goChildren_perm all m.art.id).mem_iff.mp hc2)
        rw [hc2c, hmx] at hmem
        exact hmem.2
    · have hxmem : x ∈ flatF (buildServerForest all) := by
        rw [flatF_nodes]
        rw [← hmx]
        exact List.mem_map_of_mem TNode.art hm
      by_contra hnr
      have h0 := forest_count all hnd hne x hx
      rw [if_neg hnr] at h0
      have := (occ_pos_iff x (flatF (buildServerForest all))).mpr hxmem
      omega
  · rintro ⟨hpar, hreach⟩
    have hxid : x.id ≠ "" := hne x hx
    have hpc : pArt all c = some x := pArt_of_child all hnd c x hx hxid hpar
    rcases (reaches_iff all x).mp hreach with ⟨k0, hk0, r, hr, hroot⟩
    have hchain : iterUp all (1 + k0) c = some r := by
      rw [iterUp_add all 1 c k0]
      rw [show iterUp all 1 c = (iterUp all 0 c).bind (pArt all) from rfl]
      rw [show iterUp all 0 c = some c from rfl]
      rw [Option.some_bind, hpc, Option.some_bind]
      exact hr
    have hbound := chain_bound all c hc (1 + k0) r hchain hroot
    have hrc : reaches all c = true :=
      (reaches_iff all c).mpr ⟨1 + k0, by omega, r, hchain, hroot⟩
    have hocc := forest_count all hnd hne c hc
    rw [if_pos hrc] at hocc
    have hcmem : c ∈ flatF (buildServerForest all) :=
      (occ_pos_iff c _).mp (by omega)
    rw [flatF_nodes] at hcmem
    rcases List.mem_map.mp hcmem with ⟨m2, hm2, hm2art⟩
    rcases mem_nodesF_cases _ m2 hm2 with htop | ⟨m, hmn, hsub⟩
    · rcases forest_top all m2 htop with ⟨hroot2, -, -⟩
      rw [hm2art] at hroot2
      unfold isRootArticle at hroot2
      rw [hpar] at hroot2
      exact absurd (by simpa using hroot2) hxid
    · have hsub0 := hsub
      rcases nodes_of_forest all m hmn with ⟨⟨f2, hbuild⟩, hmall⟩
      cases f2 with
      | zero =>
        rw [hbuild] at hsub
        rw [show (buildTreeNode all 0 m.art).subs = [] from rfl] at hsub
        exact absurd hsub (by simp)
      | succ f3 =>
        rw [hbuild] at hsub
        rw [show (buildTreeNode all (f3+1) m.art).subs =
          (goChildren all m.art.id).map (fun c2 => buildTreeNode all f3 c2) from rfl] at hsub
        rcases List.mem_map.mp hsub with ⟨c2, hc2, hbc2⟩
        have hm2a : m2.art = c2 := by rw [← hbc2, art_buildTreeNode]
        have hc2c : c2 = c := by rw [← hm2a, hm2art]
        have hmem2 := (children_mem_iff all m.art.id c2).mp
          ((goChildren_perm all m.art.id).mem_iff.mp hc2)
        rw [hc2c] at hmem2
        have hid : m.art.id = x.id := by
          have h1 := hmem2.2
          rw [hpar] at h1
          exact (Option.some.inj h1).symm
        have hmx : m.art = x := List.inj_on_of_nodup_map hnd hmall hx hid
        refine ⟨m, hmn, ?_⟩
        rw [Bool.and_eq_true]
        refine ⟨by simpa using hmx, ?_⟩
        refine List.any_eq_true.mpr ⟨m2, hsub0, ?_⟩
        simpa using hm2art

/-- Root article of the C1 examples. -/
def exRoot : Article :=
  { id := "A", title := "Root", content := "", parentID := none, order := 0, url := "" }

/-- Child of the root in the C1 examples. -/
def exChild : Article :=
  { id := "B", title := "Child", content := "", parentID := some "A", order := 0, url := "" }

/-- Article whose parent reference resolves to no identifier in the list. -/
def exDangling : Article :=
  { id := "D", title := "Dangling", content := "", parentID := some "X", order := 0, url := "" }

/-- C1 counterexample: an article whose non-empty parent reference does not
resolve to any identifier in the list is neither a root (its parent field is
non-empty) nor anyone's child, so the built forest omits it entirely —
refuting both "contains every article exactly once" and "treated as a
root, never omitted". -/
theorem c1_tree_builder_counterexample :
    exDangling ∈ [exRoot, exDangling] ∧
    exDangling.parentID = some "X" ∧
    (¬ ("X" : String) ∈ [exRoot, exDangling].map Article.id) ∧
    occ exDangling (flatF (buildServerForest [exRoot, exDangling])) = 0 ∧
    flatF (buildServerForest [exRoot, exDangling]) = [exRoot] := by
  refine ⟨by decide, by decide, by decide, by decide, by decide⟩

/-- C1 amended: for pairwise-distinct non-empty identifiers, the built forest
contains an article of the list exactly once when its parent-reference chain
reaches a root article, and not at all otherwise (dangling or cyclic parent
references are dropped, not treated as roots); the parent/child edges of the
forest are exactly the resolved parent references below reachable parents —
the mirroring half of the claim holds for every retained article. -/
theorem c1_tree_builder_amended (all : List Article)
    (hnd : (all.map Article.id).Nodup) (hne : ∀ b ∈ all, b.id ≠ "")
    (x : Article) (hx : x ∈ all) :
    occ x (flatF (buildServerForest all)) = (if reaches all x = true then 1 else 0) ∧
    (∀ c ∈ all, (hasEdge (buildServerForest all) x c = true ↔
      (c.parentID = some x.id ∧ reaches all x = true))) :=
  ⟨forest_count all hnd hne x hx, fun c hc => hasEdge_iff all hnd hne x hx c hc⟩

/-- Witness for C1 amended at a three-article list with a root, a child and
a dangling article. -/
theorem c1_tree_builder_witness :
    (([exRoot, exChild, exDangling].map Article.id).Nodup ∧
      (∀ b ∈ [exRoot, exChild, exDangling], b.id ≠ "") ∧
      exRoot ∈ [exRoot, exChild, exDangling]) ∧
    occ exRoot (flatF (buildServerForest [exRoot, exChild, exDangling])) =
      (if reaches [exRoot, exChild, exDangling] exRoot = true then 1 else 0) ∧
    (∀ c ∈ [exRoot, exChild, exDangling],
      (hasEdge (buildServerForest [exRoot, exChild, exDangling]) exRoot c = true ↔
        (c.parentID = some exRoot.id ∧
          reaches [exRoot, exChild, exDangling] exRoot = true))) := by
  refine ⟨⟨by decide, by decide, by decide⟩, ?_⟩
  exact c1_tree_builder_amended [exRoot, exChild, exDangling] (by decide) (by decide)
    exRoot (by decide)
